import Mathlib

/-!
# Verification of the react-intl-universal-forge extraction engine

Shallow embedding of the extraction-and-rewrite engine
(`src/core/ast-utils.ts`, `src/core/file-processor.ts`,
`src/core/key-generator.ts`) and proofs about the frozen claims.

The Babel AST is embedded as the inductive `Node`; the mutable
`translations` object is an association list threaded as explicit state;
`console.warn` is a counter in the state.  The pluggable key-generation
collaborator (`generateKeySync` / `generateKey`, md5-based or AI-backed)
is a function parameter `gen : String → String → String`
(text, context ↦ key), as the engine only consumes it as an abstract
deterministic collaborator.
-/

namespace Forge

/-- The character class of `CHINESE_REGEX = /[一-龥]/`. -/
def isChineseChar (c : Char) : Bool :=
  0x4e00 ≤ c.toNat && c.toNat ≤ 0x9fa5

/-- `CHINESE_REGEX.test s`. -/
def containsChinese (s : String) : Bool :=
  s.data.any isChineseChar

/-- The Babel AST node kinds the engine dispatches on.  Template literals
carry their cooked quasi strings; `jsxEmpty` is `JSXEmptyExpression`;
`funcExpr` covers `ArrowFunctionExpression` / `FunctionExpression` (its
body is either a `block` or an expression); `other` stands for every node
kind the engine never inspects. -/
inductive Node where
  | stringLit (value : String)
  | templateLit (quasis : List String) (exprs : List Node)
  | conditional (test cons alt : Node)
  | logical (op : String) (left right : Node)
  | arrayLit (elems : List (Option Node))
  | binary (op : String) (left right : Node)
  | call (callee : Node) (args : List Node)
  | member (obj prop : Node) (computed : Bool)
  | ident (name : String)
  | numLit (value : Nat)
  | objectProperty (key value : Node) (computed shorthand : Bool)
  | objectMethod (kind : String) (key : Node) (body : Node) (computed : Bool)
  | objectLit (props : List Node)
  | jsxContainer (expr : Node)
  | jsxEmpty
  | jsxText (value : String)
  | funcExpr (body : Node)
  | block (stmts : List Node)
  | returnStmt (arg : Option Node)
  | newExpr (callee : Node) (args : List Node)
  | tsAs (expr : Node)
  | other
  deriving Repr

/-- A value of the `translations` dictionary: the source accepts either a
plain string or a `{ text, context, interpolations }` record
(`typeof value === 'string' ? value : value.text`). -/
inductive TransVal where
  | str (s : String)
  | entry (text : String) (context : String) (interpolations : List String)
  deriving Repr, DecidableEq

def TransVal.textOf : TransVal → String
  | .str s => s
  | .entry t _ _ => t

def TransVal.varsOf : TransVal → List String
  | .str _ => []
  | .entry _ _ i => i

/-- A JS object with string keys, in insertion order (`Object.entries`
iterates in that order, a key occurs at most once). -/
abbrev Translations := List (String × TransVal)

/-- `translations[key] = value`: overwrite in place when the key exists
(the key keeps its position), append otherwise. -/
def setKey : Translations → String → TransVal → Translations
  | [], k, v => [(k, v)]
  | (k', v') :: rest, k, v =>
    if k' = k then (k, v) :: rest else (k', v') :: setKey rest k v

def lookupKey : Translations → String → Option TransVal
  | [], _ => none
  | (k', v') :: rest, k => if k' = k then some v' else lookupKey rest k

/-- Lexicographic string comparison by code point, the order JS
`Array.prototype.sort()` applies to string arrays (the engine only ever
compares two sorted arrays for equality, so any total order gives the
same comparison results). -/
def strLeAux : List Char → List Char → Bool
  | [], _ => true
  | _ :: _, [] => false
  | a :: as, b :: bs =>
    if a.toNat < b.toNat then true
    else if b.toNat < a.toNat then false
    else strLeAux as bs

def strLe (s t : String) : Bool := strLeAux s.data t.data

/-- JS `Array.prototype.sort()` on a string array. -/
def insertSorted (s : String) : List String → List String
  | [] => [s]
  | t :: rest => if strLe s t then s :: t :: rest else t :: insertSorted s rest

def sortStrings (l : List String) : List String :=
  l.foldr insertSorted []

/-- The dedup probe of `extractValue`'s string-literal case:
`Object.entries(translations).find(([k,v]) => text === v.text &&
v.interpolations.length === 0)`. -/
def findKeyForText : Translations → String → Option String
  | [], _ => none
  | (k, val) :: rest, text =>
    if val.textOf = text && val.varsOf = [] then some k
    else findKeyForText rest text

/-- The dedup probe comparing text plus sorted interpolation names:
`text === v.text && JSON.stringify(v.interpolations.sort()) ===
JSON.stringify(currentVars.sort())`. -/
def findKeyForTextVars : Translations → String → List String → Option String
  | [], _, _ => none
  | (k, val) :: rest, text, vars =>
    if val.textOf = text && sortStrings val.varsOf = sortStrings vars then some k
    else findKeyForTextVars rest text vars

/-- Model of the external printer `generate(expr).code`, which the engine
only uses to derive an interpolation variable name from a member
expression.  Exact output for identifier/member chains; a fixed
placeholder shape for the remaining kinds (the printer is an external
dependency of the repository). -/
def generateCode : Node → String
  | .ident n => n
  | .member o p true => generateCode o ++ "[" ++ generateCode p ++ "]"
  | .member o p false => generateCode o ++ "." ++ generateCode p
  | .stringLit s => "\x22" ++ s ++ "\x22"
  | .numLit n => toString n
  | .call c _ => generateCode c ++ "()"
  | _ => "expr"

/-- `.replace(/[^a-zA-Z0-9]/g, '_')` (Lean's `Char.isAlphanum` is exactly
ASCII `[a-zA-Z0-9]`). -/
def sanitizeVarName (s : String) : String :=
  String.mk (s.data.map (fun c => if c.isAlphanum then c else '_'))

/-- One parsed interpolation of a template literal. -/
structure TplVar where
  name : String
  expr : Node
  deriving Repr

/-- The variable name `parseTemplateLiteral` derives for the `i`-th
embedded expression. -/
def varNameFor (e : Node) (i : Nat) : String :=
  match e with
  | .ident n => n
  | .member o p c => sanitizeVarName (generateCode (.member o p c))
  | _ => "value" ++ toString i

def parseTemplateAux : List String → List Node → Nat → String × List TplVar
  | [], _, _ => ("", [])
  | q :: qs, [], i =>
    let r := parseTemplateAux qs [] (i + 1)
    (q ++ r.1, r.2)
  | q :: qs, e :: es, i =>
    let vn := varNameFor e i
    let r := parseTemplateAux qs es (i + 1)
    (q ++ "\x7b" ++ vn ++ "\x7d" ++ r.1, ⟨vn, e⟩ :: r.2)

/-- `parseTemplateLiteral(node)`: interleaves cooked quasis with
`{varName}` placeholders and collects the interpolation list. -/
def parseTemplateLiteral (quasis : List String) (exprs : List Node) :
    String × List TplVar :=
  parseTemplateAux quasis exprs 0

/-- `createIntlGetCallExpression(key, vars)`. -/
def createIntlGetCallExpression (key : String) (vars : List TplVar) : Node :=
  let args :=
    if vars.length > 0 then
      [Node.stringLit key,
        Node.objectLit (vars.map (fun v =>
          Node.objectProperty (.ident v.name) v.expr false
            (match v.expr with | .ident n => n = v.name | _ => false)))]
    else [Node.stringLit key]
  .call (.member (.ident "intl") (.ident "get") false) args

/-- `isIntlGetCall(node)`: member expression `intl.get` / `intl.getHTML`
(the source does not look at `computed`). -/
def isIntlGetCall : Node → Bool
  | .member (.ident "intl") (.ident p) _ => p = "get" || p = "getHTML"
  | _ => false

/-- `shouldSkipNode(path)`: some enclosing node is a call whose callee is
the runtime lookup function; modeled over the list of ancestors of the
node, outermost first. -/
def shouldSkipNode (ancestors : List Node) : Bool :=
  ancestors.any (fun p =>
    match p with
    | .call callee _ => isIntlGetCall callee
    | _ => false)

/-- `getObjectPropertyKey(prop)`. -/
def getObjectPropertyKey : Node → Option String
  | .objectProperty (.ident n) _ _ _ => some n
  | .objectProperty (.stringLit s) _ _ _ => some s
  | _ => none

/-- `getFunctionName(callee)`: identifier name, `object.property` for a
member expression with identifier parts (just the property name when the
object is not an identifier), `null` otherwise. -/
def getFunctionName (callee : Node) : Option String :=
  match callee with
  | .ident n => some n
  | .member o p _ =>
    let object := match o with | .ident n => n | _ => ""
    let property := match p with | .ident n => n | _ => ""
    if object ≠ "" then some (object ++ "." ++ property) else some property
  | _ => none

/-- Character-list version of `String.prototype.startsWith`. -/
def leadChars : List Char → List Char → Bool
  | [], _ => true
  | _ :: _, [] => false
  | a :: as, b :: bs => a = b && leadChars as bs

/-- `funcName.startsWith(text)`. -/
def strStartsWith (s p : String) : Bool := leadChars p.data s.data

/-- `shouldSkipFunctionCall(funcName, config)`; `config.skipFunctionCalls`
is the skip list: exact match for dotted entries, exact or dot-prefixed
match otherwise.  A `null`/empty name is always skipped. -/
def shouldSkipFunctionCall (funcName : Option String) (skipList : List String) : Bool :=
  match funcName with
  | none => true
  | some n =>
    if n = "" then true
    else skipList.any (fun skip =>
      if (skip.data.any (· = '.')) then n = skip
      else n = skip || strStartsWith n (skip ++ "."))

/-- `flattenBinaryExpressionParts(node)`. -/
def flattenBinaryExpressionParts : Node → List Node
  | .binary "+" l r =>
    flattenBinaryExpressionParts l ++ flattenBinaryExpressionParts r
  | n => [n]

/-- The text contributed by a part of a flattened `+` chain when it is a
string literal or an expressionless template literal (else `none`: the
part becomes an interpolation slot). -/
def partIsLiteral : Node → Option String
  | .stringLit v => some v
  | .templateLit qs [] => some (String.join qs)
  | _ => none

def hasChineseParts (parts : List Node) : Bool :=
  parts.any (fun p =>
    match partIsLiteral p with
    | some v => containsChinese v
    | none => false)

def hasExprParts (parts : List Node) : Bool :=
  parts.any (fun p => (partIsLiteral p).isNone)

/-- The quasi/expression construction loop of
`buildTemplateLiteralFromBinaryExpression`: literal parts accumulate into
the current buffer, a non-literal part flushes the buffer as a quasi and
becomes an expression; a final quasi flushes the remaining buffer. -/
def buildQuasisExprs : List Node → String → List String × List Node
  | [], buffer => ([buffer], [])
  | p :: ps, buffer =>
    match partIsLiteral p with
    | some v => buildQuasisExprs ps (buffer ++ v)
    | none =>
      let r := buildQuasisExprs ps ""
      (buffer :: r.1, p :: r.2)

/-- `buildTemplateLiteralFromBinaryExpression(node)`: `none` unless the
flattened parts contain at least one non-literal part and Chinese text in
some literal part. -/
def buildTemplateLiteralFromBinaryExpression (node : Node) : Option Node :=
  match node with
  | .binary "+" l r =>
    let parts := flattenBinaryExpressionParts (.binary "+" l r)
    if parts.isEmpty then none
    else if hasExprParts parts && hasChineseParts parts then
      let r := buildQuasisExprs parts ""
      some (.templateLit r.1 r.2)
    else none
  | _ => none

/-- State threaded through `extractValue`: the shared `translations`
dictionary plus a counter of `console.warn` calls (the depth guard is the
only warning source inside `extractValue`). -/
structure ExtractState where
  translations : Translations
  warnings : Nat
  deriving Repr, DecidableEq

/-- `{ key, replacementNode, hasExtraction }`; `hasExtraction` is `true`
in every object the source returns, so a `some` result encodes it. -/
structure ExtractResult where
  key : Option String
  replacement : Node
  deriving Repr

/-- `args.map`/`expressions.forEach` with extraction by the callback
`f`: the rewritten list, whether any extraction happened, and the
threaded state. -/
def extractExprListWith
    (f : Node → ExtractState → Option ExtractResult × ExtractState) :
    List Node → ExtractState → List Node × Bool × ExtractState
  | [], s => ([], false, s)
  | n :: ns, s =>
    let r := f n s
    let rest := extractExprListWith f ns r.2
    match r.1 with
    | some res => (res.replacement :: rest.1, true, rest.2.2)
    | none => (n :: rest.1, rest.2.1, rest.2.2)

/-- Array elements (`null` holes are kept). -/
def extractElemListWith
    (f : Node → ExtractState → Option ExtractResult × ExtractState) :
    List (Option Node) → ExtractState →
    List (Option Node) × Bool × ExtractState
  | [], s => ([], false, s)
  | none :: ns, s =>
    let rest := extractElemListWith f ns s
    (none :: rest.1, rest.2.1, rest.2.2)
  | some n :: ns, s =>
    let r := f n s
    let rest := extractElemListWith f ns r.2
    match r.1 with
    | some res => (some res.replacement :: rest.1, true, rest.2.2)
    | none => (some n :: rest.1, rest.2.1, rest.2.2)

/-- `properties.map` of the object-expression case: a property whose key
name is exactly `label` (and not shorthand) becomes a getter
`ObjectMethod`; any other extracted property keeps a plain value; a
non-`ObjectProperty` member passes through. -/
def extractPropListWith
    (f : Node → ExtractState → Option ExtractResult × ExtractState) :
    List Node → ExtractState → List Node × Bool × ExtractState
  | [], s => ([], false, s)
  | p :: ps, s =>
    match p with
    | .objectProperty k v comp sh =>
      let r := f v s
      let rest := extractPropListWith f ps r.2
      match r.1 with
      | some res =>
        let newProp :=
          if getObjectPropertyKey (.objectProperty k v comp sh) = some "label"
              && !sh then
            Node.objectMethod "get" k (.block [.returnStmt (some res.replacement)])
              comp
          else
            Node.objectProperty k res.replacement comp sh
        (newProp :: rest.1, true, rest.2.2)
      | none => (.objectProperty k v comp sh :: rest.1, rest.2.1, rest.2.2)
    | q =>
      let rest := extractPropListWith f ps s
      (q :: rest.1, rest.2.1, rest.2.2)

/-- `body.body.forEach`: extraction inside each `return` statement's
argument. -/
def extractStmtListWith
    (f : Node → ExtractState → Option ExtractResult × ExtractState) :
    List Node → ExtractState → List Node × Bool × ExtractState
  | [], s => ([], false, s)
  | st :: sts, s =>
    match st with
    | .returnStmt (some arg) =>
      let r := f arg s
      let rest := extractStmtListWith f sts r.2
      match r.1 with
      | some res =>
        (.returnStmt (some res.replacement) :: rest.1, true, rest.2.2)
      | none => (.returnStmt (some arg) :: rest.1, rest.2.1, rest.2.2)
    | q =>
      let rest := extractStmtListWith f sts s
      (q :: rest.1, rest.2.1, rest.2.2)

/-- `extractValue`, fueled: fuel `0` is the `depth >= MAX_RECURSION_DEPTH`
guard (warn and return `null`); every recursive call of the source passes
`depth + 1`, i.e. fuel one less.  Cases appear in source order; a node
matching none of the dispatched kinds falls through to `return null`. -/
def extractValueFuel (gen : String → String → String) :
    Nat → Node → String → String → ExtractState →
    Option ExtractResult × ExtractState
  | 0, _, _, _, s => (none, { s with warnings := s.warnings + 1 })
  | fuel + 1, node, ctx, fp, s =>
    match node with
    -- 1. string literal
    | .stringLit v =>
      if !containsChinese v then (none, s)
      else
        match findKeyForText s.translations v with
        | some k => (some ⟨some k, createIntlGetCallExpression k []⟩, s)
        | none =>
          let k := gen v ctx
          (some ⟨some k, createIntlGetCallExpression k []⟩,
            { s with translations := setKey s.translations k (.entry v fp []) })
    -- 2. template literal: nested expressions first, then the skeleton
    | .templateLit quasis exprs =>
      let r := extractExprListWith
        (fun n s' => extractValueFuel gen fuel n ctx fp s') exprs s
      let hasNested := r.2.1
      let s1 := r.2.2
      let node2 := Node.templateLit quasis r.1
      let parsed := parseTemplateLiteral quasis r.1
      let hasCh := containsChinese parsed.1
      if hasNested && !hasCh then (some ⟨none, node2⟩, s1)
      else if hasCh then
        let currentVars := parsed.2.map TplVar.name
        match findKeyForTextVars s1.translations parsed.1 currentVars with
        | some k => (some ⟨some k, createIntlGetCallExpression k parsed.2⟩, s1)
        | none =>
          let k := gen parsed.1 ctx
          (some ⟨some k, createIntlGetCallExpression k parsed.2⟩,
            { s1 with translations :=
                setKey s1.translations k (.entry parsed.1 fp currentVars) })
      else if hasNested then (some ⟨none, node2⟩, s1)
      else (none, s1)
    -- 3. conditional expression
    | .conditional t c a =>
      let rc := extractValueFuel gen fuel c ctx fp s
      let ra := extractValueFuel gen fuel a ctx fp rc.2
      if rc.1.isSome || ra.1.isSome then
        (some ⟨none, .conditional t
          (match rc.1 with | some x => x.replacement | none => c)
          (match ra.1 with | some x => x.replacement | none => a)⟩, ra.2)
      else (none, ra.2)
    -- 4. logical expression
    | .logical op l rn =>
      let rl := extractValueFuel gen fuel l ctx fp s
      let rr := extractValueFuel gen fuel rn ctx fp rl.2
      if rl.1.isSome || rr.1.isSome then
        (some ⟨none, .logical op
          (match rl.1 with | some x => x.replacement | none => l)
          (match rr.1 with | some x => x.replacement | none => rn)⟩, rr.2)
      else (none, rr.2)
    -- 5. array expression
    | .arrayLit elems =>
      let r := extractElemListWith
        (fun n s' => extractValueFuel gen fuel n ctx fp s') elems s
      if r.2.1 then (some ⟨none, .arrayLit r.1⟩, r.2.2) else (none, r.2.2)
    -- 6. binary `+` (string concatenation)
    | .binary op l rn =>
      if op = "+" then
        let conv := buildTemplateLiteralFromBinaryExpression (.binary op l rn)
        let attempt :=
          match conv with
          | some tpl => extractValueFuel gen fuel tpl ctx fp s
          | none => (none, s)
        match attempt.1 with
        | some res => (some res, attempt.2)
        | none =>
          let rl := extractValueFuel gen fuel l ctx fp attempt.2
          let rr := extractValueFuel gen fuel rn ctx fp rl.2
          if rl.1.isSome || rr.1.isSome then
            (some ⟨none, .binary "+"
              (match rl.1 with | some x => x.replacement | none => l)
              (match rr.1 with | some x => x.replacement | none => rn)⟩, rr.2)
          else (none, rr.2)
      else (none, s)
    -- 7. call expression: never re-enter the runtime lookup
    | .call callee args =>
      if isIntlGetCall callee then (none, s)
      else
        let r := extractExprListWith
          (fun n s' => extractValueFuel gen fuel n ctx fp s') args s
        if r.2.1 then (some ⟨none, .call callee r.1⟩, r.2.2)
        else (none, r.2.2)
    -- 8. object expression
    | .objectLit props =>
      let r := extractPropListWith
        (fun n s' => extractValueFuel gen fuel n ctx fp s') props s
      if r.2.1 then (some ⟨none, .objectLit r.1⟩, r.2.2) else (none, r.2.2)
    -- 9. JSX expression container
    | .jsxContainer e => extractValueFuel gen fuel e ctx fp s
    -- 10. arrow / function expression
    | .funcExpr body =>
      match body with
      | .block stmts =>
        let r := extractStmtListWith
          (fun n s' => extractValueFuel gen fuel n ctx fp s') stmts s
        if r.2.1 then (some ⟨none, .funcExpr (.block r.1)⟩, r.2.2)
        else (none, r.2.2)
      | b =>
        let rb := extractValueFuel gen fuel b ctx fp s
        match rb.1 with
        | some res => (some ⟨none, .funcExpr res.replacement⟩, rb.2)
        | none => (none, rb.2)
    | _ => (none, s)

/-- `MAX_RECURSION_DEPTH`. -/
def MAX_RECURSION_DEPTH : Nat := 10

/-- `extractValue(valueNode, context, filePath, fileType, translations,
depth)`: the depth guard returns `null` and warns once `depth` reaches
`MAX_RECURSION_DEPTH`, realized by fuel `MAX_RECURSION_DEPTH - depth`
(every recursive call passes `depth + 1`).  The `fileType` argument is
threaded by the source but never read, so it is omitted. -/
def extractValue (gen : String → String → String) (node : Node)
    (ctx fp : String) (s : ExtractState) (depth : Nat) :
    Option ExtractResult × ExtractState :=
  extractValueFuel gen (MAX_RECURSION_DEPTH - depth) node ctx fp s

/-! ## Key collision detection (`src/core/key-generator.ts`) -/

/-- One reported collision `{ key, texts }`. -/
structure KeyCollision where
  key : String
  texts : List String
  deriving Repr, DecidableEq

/-- The `keyToTexts` buckets object. -/
abbrev TextBuckets := List (String × List String)

def bucketsGet : TextBuckets → String → Option (List String)
  | [], _ => none
  | (k', v') :: rest, k => if k' = k then some v' else bucketsGet rest k

def bucketsSet : TextBuckets → String → List String → TextBuckets
  | [], k, v => [(k, v)]
  | (k', v') :: rest, k, v =>
    if k' = k then (k, v) :: rest else (k', v') :: bucketsSet rest k v

/-- The first loop of `detectKeyCollisions`:
`keyToTexts[key] = (keyToTexts[key] ?? []).push(text)`. -/
def buildKeyToTexts : Translations → TextBuckets → TextBuckets
  | [], acc => acc
  | (k, v) :: rest, acc =>
    buildKeyToTexts rest (bucketsSet acc k ((bucketsGet acc k).getD [] ++ [v.textOf]))

/-- `detectKeyCollisions(translations)`: report every key whose text
bucket holds more than one element. -/
def detectKeyCollisions (translations : Translations) : List KeyCollision :=
  ((buildKeyToTexts translations []).filter (fun b => b.2.length > 1)).map
    (fun b => ⟨b.1, b.2⟩)

/-! ## Key assignment and dedup (`collectAndGenerateKeys`, Pass 1) -/

/-- A collected candidate (`textsToTranslate` item): its text and the
parsed interpolation variables (`[]` when the item kind carries none). -/
structure CandidateItem where
  text : String
  vars : List TplVar
  deriving Repr

/-- The counters `collectAndGenerateKeys` updates during the probe loop. -/
structure RunStats where
  reusedKeys : Nat
  interpolations : Nat
  deriving Repr, DecidableEq

/-- The dedup probe of the `collectAndGenerateKeys` loop: first table
entry with the same text and the same sorted interpolation names. -/
def probeExisting (table : Translations) (item : CandidateItem) : Option String :=
  findKeyForTextVars table item.text (item.vars.map TplVar.name)

/-- The key-assignment phase of `collectAndGenerateKeys`
(file-processor.ts:441-547), non-AI strategy: first the probe loop over
all collected items against the incoming table (which the loop does not
modify), then `generateKey(text, context)` — the deterministic
collaborator `gen` — plus a table insert for each missed item, in item
order.  Returns each item with its assigned key, the updated table, and
the updated counters. -/
def assignKeys (gen : String → String → String) (items : List CandidateItem)
    (context fp : String) (table : Translations) (stats : RunStats) :
    List (CandidateItem × String) × Translations × RunStats :=
  let probed := items.map (fun it => (it, probeExisting table it))
  let stats1 := probed.foldl
    (fun st x =>
      match x.2 with
      | some _ => { st with reusedKeys := st.reusedKeys + 1 }
      | none => { st with interpolations := st.interpolations + x.1.vars.length })
    stats
  let step := probed.foldl
    (fun (acc : List (CandidateItem × String) × Translations) x =>
      match x.2 with
      | some k => (acc.1 ++ [(x.1, k)], acc.2)
      | none =>
        let k := gen x.1.text context
        (acc.1 ++ [(x.1, k)],
          setKey acc.2 k (.entry x.1.text fp (x.1.vars.map TplVar.name))))
    ([], table)
  (step.1, step.2, stats1)

/-! ## Pass-2 visitors (`transformFile`, file-processor.ts) -/

/-- `{ name, intlKey, line, column }` as pushed to
`stats.topLevelConstants`. -/
structure TopLevelConstant where
  name : String
  intlKey : Option String
  line : Option Nat
  column : Option Nat
  deriving Repr, DecidableEq

/-- The counters and lists of the per-file `stats` object that the
modeled visitors touch. -/
structure FileStats where
  extracted : Nat
  dataConstants : Nat
  topLevelConstants : List TopLevelConstant
  deriving Repr, DecidableEq

structure VisitFlags where
  needsIntlImport : Bool
  deriving Repr, DecidableEq

/-- `updateImportStats(fileType, flags, stats)`. -/
def updateImportStats (flags : VisitFlags) (stats : FileStats) :
    VisitFlags × FileStats :=
  ({ flags with needsIntlImport := true },
    { stats with extracted := stats.extracted + 1 })

/-- `t.isCallExpression(n) && isIntlGetCall(n.callee)`. -/
def isIntlCallNode : Node → Bool
  | .call callee _ => isIntlGetCall callee
  | _ => false

/-- `t.isStringLiteral(n.arguments?.[0]) ? value : null`. -/
def intlKeyOf : Node → Option String
  | .call _ (Node.stringLit k :: _) => some k
  | _ => none

/-- `createLazyGetterFromProperty(prop, returnExpression)` (comments are
not modeled). -/
def createLazyGetterFromProperty (key : Node) (computed : Bool)
    (returnExpression : Node) : Node :=
  .objectMethod "get" key (.block [.returnStmt (some returnExpression)]) computed

/-- `t.isIdentifier(prop.key) || t.isStringLiteral(prop.key)`. -/
def isGetterableKey : Node → Bool
  | .ident _ => true
  | .stringLit _ => true
  | _ => false

/-- Is the rewritten property an accessor (`ObjectMethod` of kind
`get`)?  Used to state the lazy-accessor claims. -/
def isAccessorNode : Node → Bool
  | .objectMethod "get" _ _ _ => true
  | _ => false

/-- The `ObjectProperty` visitor of Pass 2 (file-processor.ts:947-987).
`skip` is `shouldSkipNode(path)`; `underArrayDecl` is true when the
nearest enclosing `VariableDeclarator` has an array-expression `init`;
`inRuntimeScope` is `isInsideRuntimeScope(path)`. -/
def visitObjectProperty (gen : String → String → String) (prop : Node)
    (skip underArrayDecl inRuntimeScope : Bool) (ctx fp : String)
    (s : ExtractState) (stats : FileStats) (flags : VisitFlags) :
    Node × ExtractState × FileStats × VisitFlags :=
  if skip then (prop, s, stats, flags)
  else if underArrayDecl then (prop, s, stats, flags)
  else
    match prop with
    | .objectProperty k v comp sh =>
      let r := extractValue gen v ctx fp s 0
      let s1 := r.2
      let replacement := match r.1 with | some res => res.replacement | none => v
      let shouldUseGetter :=
        !inRuntimeScope && !comp && !sh && isGetterableKey k
          && isIntlCallNode replacement
      let sf := match r.1 with
        | some _ => updateImportStats flags stats
        | none => (flags, stats)
      if shouldUseGetter then
        (createLazyGetterFromProperty k comp replacement, s1,
          { sf.2 with dataConstants := sf.2.dataConstants + 1 }, sf.1)
      else
        match r.1 with
        | some _ => (.objectProperty k replacement comp sh, s1, sf.2, sf.1)
        | none => (prop, s1, sf.2, sf.1)
    | _ => (prop, s, stats, flags)

/-- `processObjectExpression` inside the `VariableDeclarator` visitor
(file-processor.ts:1081-1119): map each `ObjectProperty` of an object
literal through extraction and the getter decision. -/
def processObjectProps (gen : String → String → String)
    (inRuntimeScope : Bool) (ctx fp : String) :
    List Node → ExtractState → FileStats → VisitFlags →
    List Node × ExtractState × FileStats × VisitFlags
  | [], s, stats, flags => ([], s, stats, flags)
  | p :: ps, s, stats, flags =>
    match p with
    | .objectProperty k v comp sh =>
      let r := extractValue gen v ctx fp s 0
      let replacement := match r.1 with | some res => res.replacement | none => v
      let sf := match r.1 with
        | some _ => updateImportStats flags stats
        | none => (flags, stats)
      let shouldUseGetter :=
        !inRuntimeScope && !comp && !sh && isGetterableKey k
          && isIntlCallNode replacement
      let p' :=
        if shouldUseGetter then createLazyGetterFromProperty k comp replacement
        else if r.1.isSome then Node.objectProperty k replacement comp sh
        else p
      let stats' :=
        if shouldUseGetter then { sf.2 with dataConstants := sf.2.dataConstants + 1 }
        else sf.2
      let rest := processObjectProps gen inRuntimeScope ctx fp ps r.2 stats' sf.1
      (p' :: rest.1, rest.2)
    | q =>
      let rest := processObjectProps gen inRuntimeScope ctx fp ps s stats flags
      (q :: rest.1, rest.2)

/-- `init.expression` unwrap for `TSAsExpression`/`TSTypeAssertion`. -/
def unwrapTsAs : Node → Node
  | .tsAs e => e
  | n => n

def isObjectExpressionNode : Node → Bool
  | .objectLit _ => true
  | _ => false

def isArrayExpressionNode : Node → Bool
  | .arrayLit _ => true
  | _ => false

/-- One entry of `stats.topLevelConstants` built from a declarator:
`{name: id.name, intlKey, line, column}`. -/
def topLevelEntryOf (idName : String) (replacement : Node)
    (loc : Option (Nat × Nat)) : TopLevelConstant :=
  ⟨idName, intlKeyOf replacement, loc.map Prod.fst, loc.map Prod.snd⟩

/-- The `VariableDeclarator` visitor of Pass 2
(file-processor.ts:1020-1132) for an identifier binding `idName` with
initializer `initRaw` at source position `loc` (a non-identifier binding
returns without any action and is not modeled).  Returns the new
initializer and the updated state/stats/flags. -/
def visitVariableDeclarator (gen : String → String → String)
    (idName : String) (initRaw : Node) (loc : Option (Nat × Nat))
    (inRuntimeScope : Bool) (ctx fp : String) (s : ExtractState)
    (stats : FileStats) (flags : VisitFlags) :
    Node × ExtractState × FileStats × VisitFlags :=
  -- TSAsExpression / TSTypeAssertion unwrap
  let init := unwrapTsAs initRaw
  let isObjInit := isObjectExpressionNode init
  let isArrInit := isArrayExpressionNode init
  if !isObjInit && !isArrInit then
    -- already-wrapped top-level lookup calls are recorded up front
    let stats0 :=
      if !inRuntimeScope && isIntlCallNode init then
        { stats with topLevelConstants :=
            stats.topLevelConstants ++ [topLevelEntryOf idName init loc] }
      else stats
    let r := extractValue gen init ctx fp s 0
    match r.1 with
    | some res =>
      let sf := updateImportStats flags stats0
      -- applyReplacement
      let stats1 :=
        if !inRuntimeScope && isIntlCallNode res.replacement then
          { sf.2 with topLevelConstants :=
              sf.2.topLevelConstants ++ [topLevelEntryOf idName res.replacement loc] }
        else sf.2
      (res.replacement, r.2, stats1, sf.1)
    | none => (init, r.2, stats0, flags)
  else if isArrInit then
    -- whole-array extraction, then per-element object processing
    let r := extractValue gen init ctx fp s 0
    let afterArr :=
      match r.1 with
      | some res =>
        let sf := updateImportStats flags stats
        (res.replacement, r.2, sf.2, sf.1)
      | none => (init, r.2, stats, flags)
    match afterArr.1 with
    | .arrayLit elems =>
      let step := elems.foldl
        (fun (acc : List (Option Node) × ExtractState × FileStats × VisitFlags) el =>
          match el with
          | some (.objectLit props) =>
            let pr := processObjectProps gen inRuntimeScope ctx fp props
              acc.2.1 acc.2.2.1 acc.2.2.2
            (acc.1 ++ [some (.objectLit pr.1)], pr.2)
          | e => (acc.1 ++ [e], acc.2))
        ([], afterArr.2)
      (.arrayLit step.1, step.2)
    | n => (n, afterArr.2)
  else
    match init with
    | .objectLit props =>
      let pr := processObjectProps gen inRuntimeScope ctx fp props s stats flags
      (.objectLit pr.1, pr.2)
    | n => (n, s, stats, flags)

/-! ## Diagnostics (`stats.unrecognizedSamples`) -/

/-- One `{ text, nodeType, reason }` sample (`loc` elided: the nodes of
this model carry no source positions). -/
structure Sample where
  text : String
  nodeType : String
  reason : String
  deriving Repr, DecidableEq

/-- `recordedUnrecognizedKeys` plus `stats.unrecognizedSamples`.  The
source keys samples by `(nodeType, line, column, text)`; positions are
elided here, so the set key is `(nodeType, text)` — this only suppresses
re-recording of equal-text occurrences, which the theorems below never
rely on. -/
structure Diagnostics where
  recordedKeys : List (String × String)
  unrecognizedSamples : List Sample
  deriving Repr, DecidableEq

/-- `addUnrecognizedSample(node, text, nodeType, reason)`. -/
def addUnrecognizedSample (d : Diagnostics) (nodeType text reason : String) :
    Diagnostics :=
  if (nodeType, text) ∈ d.recordedKeys then d
  else ⟨d.recordedKeys ++ [(nodeType, text)],
    d.unrecognizedSamples ++ [⟨text, nodeType, reason⟩]⟩

/-- JS whitespace (`\s`) for `trim` and the JSX normalizer, covering the
characters that can occur in the modeled sources. -/
def isJSWhitespaceCh (c : Char) : Bool :=
  c = ' ' || c = '\t' || c = '\n' || c = '\r' || c.toNat = 0xb || c.toNat = 0xc
    || c.toNat = 0xa0 || c.toNat = 0xfeff || c.toNat = 0x3000

/-- `String.prototype.trim()`. -/
def jsTrim (s : String) : String :=
  String.mk (((s.data.dropWhile isJSWhitespaceCh).reverse.dropWhile
    isJSWhitespaceCh).reverse)

/-- The direct children of a node, in Babel visitor-key order. -/
def childNodes : Node → List Node
  | .stringLit _ => []
  | .templateLit _ es => es
  | .conditional t c a => [t, c, a]
  | .logical _ l r => [l, r]
  | .arrayLit elems => elems.filterMap id
  | .binary _ l r => [l, r]
  | .call callee args => callee :: args
  | .member o p _ => [o, p]
  | .ident _ => []
  | .numLit _ => []
  | .objectProperty k v _ _ => [k, v]
  | .objectMethod _ k b _ => [k, b]
  | .objectLit props => props
  | .jsxContainer e => [e]
  | .jsxEmpty => []
  | .jsxText _ => []
  | .funcExpr b => [b]
  | .block stmts => stmts
  | .returnStmt a => a.toList
  | .newExpr callee args => callee :: args
  | .tsAs e => [e]
  | .other => []

mutual

/-- The per-node visitors of `collectUnrecognizedFromArguments`
(file-processor.ts:755-781): record Chinese string literals (and skip
their — empty — subtree), Chinese template skeletons (descending into
their expressions), and trimmed Chinese JSX text, in pre-order. -/
def collectUnrec (reason : String) : Node → Diagnostics → Diagnostics
  | .stringLit v, d =>
    if containsChinese v then addUnrecognizedSample d "string-literal" v reason
    else d
  | .templateLit qs es, d =>
    let parsed := parseTemplateLiteral qs es
    let d1 :=
      if containsChinese parsed.1 then
        addUnrecognizedSample d "template-literal" parsed.1 reason
      else d
    collectUnrecList reason es d1
  | .jsxText v, d =>
    let t := jsTrim v
    if t ≠ "" && containsChinese t then addUnrecognizedSample d "jsx-text" t reason
    else d
  | .conditional t c a, d =>
    collectUnrec reason a (collectUnrec reason c (collectUnrec reason t d))
  | .logical _ l r, d => collectUnrec reason r (collectUnrec reason l d)
  | .arrayLit elems, d => collectUnrecOptList reason elems d
  | .binary _ l r, d => collectUnrec reason r (collectUnrec reason l d)
  | .call callee args, d => collectUnrecList reason args (collectUnrec reason callee d)
  | .member o p _, d => collectUnrec reason p (collectUnrec reason o d)
  | .ident _, d => d
  | .numLit _, d => d
  | .objectProperty k v _ _, d => collectUnrec reason v (collectUnrec reason k d)
  | .objectMethod _ k b _, d => collectUnrec reason b (collectUnrec reason k d)
  | .objectLit props, d => collectUnrecList reason props d
  | .jsxContainer e, d => collectUnrec reason e d
  | .jsxEmpty, d => d
  | .funcExpr b, d => collectUnrec reason b d
  | .block stmts, d => collectUnrecList reason stmts d
  | .returnStmt (some a), d => collectUnrec reason a d
  | .returnStmt none, d => d
  | .newExpr callee args, d => collectUnrecList reason args (collectUnrec reason callee d)
  | .tsAs e, d => collectUnrec reason e d
  | .other, d => d

def collectUnrecList (reason : String) : List Node → Diagnostics → Diagnostics
  | [], d => d
  | n :: ns, d => collectUnrecList reason ns (collectUnrec reason n d)

def collectUnrecOptList (reason : String) :
    List (Option Node) → Diagnostics → Diagnostics
  | [], d => d
  | none :: ns, d => collectUnrecOptList reason ns d
  | some n :: ns, d => collectUnrecOptList reason ns (collectUnrec reason n d)

end

/-- `argumentPaths.forEach((argPath) => argPath.traverse({...}))`:
`path.traverse` visits strict descendants, so each argument's own root
node is not visited. -/
def collectFromArgs (reason : String) (args : List Node) (d : Diagnostics) :
    Diagnostics :=
  args.foldl (fun acc arg => collectUnrecList reason (childNodes arg) acc) d

/-! ## Pass-1 collection (`collectAndGenerateKeys` visitors) -/

/-- `getSkippedFunctionForPath(path, config)` (file-processor.ts:211-229):
`nearestCallCallee` is the callee of the nearest enclosing
(optional-)call expression if any, and `withInArguments` states that the
node lies inside that call's `arguments`; the resolved name falls back to
`'anonymous'`. -/
def getSkippedFunctionForPath (skipList : List String)
    (nearestCallCallee : Option Node) (withInArguments : Bool) : Option String :=
  match nearestCallCallee with
  | none => none
  | some callee =>
    let funcName := getFunctionName callee
    if !shouldSkipFunctionCall funcName skipList then none
    else if withInArguments then some (funcName.getD "anonymous")
    else none

/-- The `StringLiteral` visitor of the collection pass
(file-processor.ts:400-415): on a skip-listed call argument the text is
recorded as unrecognized (reason `skipFunctionCall:<resolved name>`)
instead of being collected; otherwise the literal is collected exactly
when a probe `extractValue` on a fresh dictionary extracts it.  Returns
the updated diagnostics and whether the text was pushed to
`textsToTranslate`. -/
def collectStringLiteral (gen : String → String → String)
    (skipList : List String) (value : String) (ancestors : List Node)
    (nearestCallCallee : Option Node) (withInArguments : Bool)
    (underPlusBinary : Bool) (ctx fp : String) (d : Diagnostics) :
    Diagnostics × Bool :=
  if !containsChinese value || shouldSkipNode ancestors then (d, false)
  else
    match getSkippedFunctionForPath skipList nearestCallCallee withInArguments with
    | some skippedFunc =>
      (addUnrecognizedSample d "string-literal" value
        ("skipFunctionCall:" ++ skippedFunc), false)
    | none =>
      if underPlusBinary then (d, false)
      else
        let r := extractValue gen (.stringLit value) ctx fp ⟨[], 0⟩ 0
        (d, r.1.isSome)

/-! ## Pass-2 visitors for calls, comparisons, `new Error` and `return` -/

def isPromiseRejectCallee : Node → Bool
  | .member (.ident "Promise") (.ident "reject") _ => true
  | _ => false

/-- `t.isIdentifier(callee, {name:'t'}) || isIntlGetCall(callee)`. -/
def isTranslationCallCallee (callee : Node) : Bool :=
  (match callee with | .ident "t" => true | _ => false) || isIntlGetCall callee

/-- The `CallExpression` visitor of Pass 2 (file-processor.ts:890-942):
skip translation calls; special-case `Promise.reject`; on a skip-listed
callee record the argument texts (reason
`skipFunctionCall:<name or 'unknown'>`) and extract nothing; otherwise
extract inside each argument. -/
def visitCallExpression (gen : String → String → String)
    (skipList : List String) (callee : Node) (args : List Node)
    (ctx fp : String) (s : ExtractState) (d : Diagnostics)
    (stats : FileStats) (flags : VisitFlags) :
    Node × ExtractState × Diagnostics × FileStats × VisitFlags :=
  if isTranslationCallCallee callee then (.call callee args, s, d, stats, flags)
  else if isPromiseRejectCallee callee && args.length > 0 then
    match args with
    | a0 :: rest =>
      let r := extractValue gen a0 ctx fp s 0
      match r.1 with
      | some res =>
        let sf := updateImportStats flags stats
        (.call callee (res.replacement :: rest), r.2, d, sf.2, sf.1)
      | none => (.call callee (a0 :: rest), r.2, d, stats, flags)
    | [] => (.call callee args, s, d, stats, flags)
  else
    let funcName := getFunctionName callee
    if shouldSkipFunctionCall funcName skipList then
      let reason := "skipFunctionCall:" ++ (funcName.getD "unknown")
      (.call callee args, s, collectFromArgs reason args d, stats, flags)
    else
      let step := args.foldl
        (fun (acc : List Node × ExtractState × FileStats × VisitFlags) arg =>
          let r := extractValue gen arg ctx fp acc.2.1 0
          match r.1 with
          | some res =>
            let sf := updateImportStats acc.2.2.2 acc.2.2.1
            (acc.1 ++ [res.replacement], r.2, sf.2, sf.1)
          | none => (acc.1 ++ [arg], r.2, acc.2.2.1, acc.2.2.2))
        ([], s, stats, flags)
      (.call callee step.1, step.2.1, d, step.2.2)

/-- The `BinaryExpression` visitor of Pass 2 (file-processor.ts:1245-1261):
only comparison operators; extract inside both operands. -/
def visitBinaryComparison (gen : String → String → String) (op : String)
    (l r : Node) (ctx fp : String) (s : ExtractState) (stats : FileStats)
    (flags : VisitFlags) : Node × ExtractState × FileStats × VisitFlags :=
  if !(op = "===" || op = "==" || op = "!==" || op = "!=") then
    (.binary op l r, s, stats, flags)
  else
    let rl := extractValue gen l ctx fp s 0
    let lf := match rl.1 with
      | some res => (res.replacement, updateImportStats flags stats)
      | none => (l, (flags, stats))
    let rr := extractValue gen r ctx fp rl.2 0
    let rf := match rr.1 with
      | some res => (res.replacement, updateImportStats lf.2.1 lf.2.2)
      | none => (r, lf.2)
    (.binary op lf.1 rf.1, rr.2, rf.2.2, rf.2.1)

/-- The `NewExpression` visitor of Pass 2 (file-processor.ts:1137-1148):
extract inside the first argument of `new Error(...)`. -/
def visitNewExpression (gen : String → String → String) (callee : Node)
    (args : List Node) (ctx fp : String) (s : ExtractState)
    (stats : FileStats) (flags : VisitFlags) :
    Node × ExtractState × FileStats × VisitFlags :=
  match callee, args with
  | .ident "Error", a0 :: rest =>
    let r := extractValue gen a0 ctx fp s 0
    match r.1 with
    | some res =>
      let sf := updateImportStats flags stats
      (.newExpr callee (res.replacement :: rest), r.2, sf.2, sf.1)
    | none => (.newExpr callee (a0 :: rest), r.2, stats, flags)
  | _, _ => (.newExpr callee args, s, stats, flags)

/-- The `ReturnStatement` visitor of Pass 2 (file-processor.ts:1168-1177). -/
def visitReturnStatement (gen : String → String → String) (arg : Node)
    (ctx fp : String) (s : ExtractState) (stats : FileStats)
    (flags : VisitFlags) : Node × ExtractState × FileStats × VisitFlags :=
  let r := extractValue gen arg ctx fp s 0
  match r.1 with
  | some res =>
    let sf := updateImportStats flags stats
    (.returnStmt (some res.replacement), r.2, sf.2, sf.1)
  | none => (.returnStmt (some arg), r.2, stats, flags)

/-! ## The Pass-2 tree walk -/

/-- The pieces of per-file mutable state the Pass-2 walk threads. -/
structure PassState where
  es : ExtractState
  diags : Diagnostics
  stats : FileStats
  flags : VisitFlags
  deriving Repr

/-- Ancestor facts consulted by the visitors: `shouldSkipNode`
(an enclosing runtime-lookup call), the nearest declarator having an
array initializer, and `isInsideRuntimeScope`. -/
structure TraverseCtx where
  insideIntlCall : Bool
  underArrayDecl : Bool
  inRuntimeScope : Bool
  deriving Repr, DecidableEq

/-- Child traversal combinator for the Pass-2 walk. -/
def pass2ListWith (f : Node → PassState → Node × PassState) :
    List Node → PassState → List Node × PassState
  | [], ps => ([], ps)
  | n :: ns, ps =>
    let r := f n ps
    let rest := pass2ListWith f ns r.2
    (r.1 :: rest.1, rest.2)

def pass2OptListWith (f : Node → PassState → Node × PassState) :
    List (Option Node) → PassState → List (Option Node) × PassState
  | [], ps => ([], ps)
  | none :: ns, ps =>
    let rest := pass2OptListWith f ns ps
    (none :: rest.1, rest.2)
  | some n :: ns, ps =>
    let r := f n ps
    let rest := pass2OptListWith f ns r.2
    (some r.1 :: rest.1, rest.2)

/-- The Pass-2 walk (`traverseFn(ast, {...})`, file-processor.ts:808-1262)
restricted to the visitors for `CallExpression`, comparison
`BinaryExpression`, `ObjectProperty`, `NewExpression` and
`ReturnStatement`; the remaining visitors fire only on node shapes
(JSX, template literals, variable declarators, optional calls,
`notification.show` object expressions, function parameter defaults,
assignments to identifiers) that do not occur in the programs these
theorems apply it to.  Babel order: the node's visitor runs first, then
the (possibly rewritten) children are traversed, with the ancestor facts
`tc` updated on descent; `fuel` bounds the depth and is ample for every
concrete program considered. -/
def pass2Node (gen : String → String → String) (skipList : List String)
    (ctx fp : String) : Nat → TraverseCtx → Node → PassState → Node × PassState
  | 0, _, n, ps => (n, ps)
  | fuel + 1, tc, n, ps =>
    let visited : Node × PassState :=
      match n with
      | .call callee args =>
        let r := visitCallExpression gen skipList callee args ctx fp
          ps.es ps.diags ps.stats ps.flags
        (r.1, ⟨r.2.1, r.2.2.1, r.2.2.2.1, r.2.2.2.2⟩)
      | .binary op l rr =>
        let r := visitBinaryComparison gen op l rr ctx fp ps.es ps.stats ps.flags
        (r.1, ⟨r.2.1, ps.diags, r.2.2.1, r.2.2.2⟩)
      | .objectProperty k v comp sh =>
        let r := visitObjectProperty gen (.objectProperty k v comp sh)
          tc.insideIntlCall tc.underArrayDecl tc.inRuntimeScope ctx fp
          ps.es ps.stats ps.flags
        (r.1, ⟨r.2.1, ps.diags, r.2.2.1, r.2.2.2⟩)
      | .newExpr callee args =>
        let r := visitNewExpression gen callee args ctx fp ps.es ps.stats ps.flags
        (r.1, ⟨r.2.1, ps.diags, r.2.2.1, r.2.2.2⟩)
      | .returnStmt (some arg) =>
        let r := visitReturnStatement gen arg ctx fp ps.es ps.stats ps.flags
        (r.1, ⟨r.2.1, ps.diags, r.2.2.1, r.2.2.2⟩)
      | m => (m, ps)
    match visited.1 with
    | .templateLit qs es =>
      let r := pass2ListWith
        (fun c ps' => pass2Node gen skipList ctx fp fuel tc c ps') es visited.2
      (.templateLit qs r.1, r.2)
    | .conditional t c a =>
      let rt := pass2Node gen skipList ctx fp fuel tc t visited.2
      let rc := pass2Node gen skipList ctx fp fuel tc c rt.2
      let ra := pass2Node gen skipList ctx fp fuel tc a rc.2
      (.conditional rt.1 rc.1 ra.1, ra.2)
    | .logical op l r =>
      let rl := pass2Node gen skipList ctx fp fuel tc l visited.2
      let rr := pass2Node gen skipList ctx fp fuel tc r rl.2
      (.logical op rl.1 rr.1, rr.2)
    | .arrayLit elems =>
      let r := pass2OptListWith
        (fun c ps' => pass2Node gen skipList ctx fp fuel tc c ps') elems visited.2
      (.arrayLit r.1, r.2)
    | .binary op l r =>
      let rl := pass2Node gen skipList ctx fp fuel tc l visited.2
      let rr := pass2Node gen skipList ctx fp fuel tc r rl.2
      (.binary op rl.1 rr.1, rr.2)
    | .call callee args =>
      let tc' := { tc with
        insideIntlCall := tc.insideIntlCall || isIntlGetCall callee }
      let rc := pass2Node gen skipList ctx fp fuel tc' callee visited.2
      let ra := pass2ListWith
        (fun c ps' => pass2Node gen skipList ctx fp fuel tc' c ps') args rc.2
      (.call rc.1 ra.1, ra.2)
    | .member o p c =>
      let ro := pass2Node gen skipList ctx fp fuel tc o visited.2
      let rp := pass2Node gen skipList ctx fp fuel tc p ro.2
      (.member ro.1 rp.1 c, rp.2)
    | .objectProperty k v comp sh =>
      let rk := pass2Node gen skipList ctx fp fuel tc k visited.2
      let rv := pass2Node gen skipList ctx fp fuel tc v rk.2
      (.objectProperty rk.1 rv.1 comp sh, rv.2)
    | .objectMethod kind k b comp =>
      let rk := pass2Node gen skipList ctx fp fuel tc k visited.2
      let rb := pass2Node gen skipList ctx fp fuel
        { tc with inRuntimeScope := true } b rk.2
      (.objectMethod kind rk.1 rb.1 comp, rb.2)
    | .objectLit props =>
      let r := pass2ListWith
        (fun c ps' => pass2Node gen skipList ctx fp fuel tc c ps') props visited.2
      (.objectLit r.1, r.2)
    | .jsxContainer e =>
      let r := pass2Node gen skipList ctx fp fuel tc e visited.2
      (.jsxContainer r.1, r.2)
    | .funcExpr b =>
      let r := pass2Node gen skipList ctx fp fuel
        { tc with inRuntimeScope := true } b visited.2
      (.funcExpr r.1, r.2)
    | .block stmts =>
      let r := pass2ListWith
        (fun c ps' => pass2Node gen skipList ctx fp fuel tc c ps') stmts visited.2
      (.block r.1, r.2)
    | .returnStmt (some a) =>
      let r := pass2Node gen skipList ctx fp fuel tc a visited.2
      (.returnStmt (some r.1), r.2)
    | .newExpr callee args =>
      let rc := pass2Node gen skipList ctx fp fuel tc callee visited.2
      let ra := pass2ListWith
        (fun c ps' => pass2Node gen skipList ctx fp fuel tc c ps') args rc.2
      (.newExpr rc.1 ra.1, ra.2)
    | .tsAs e =>
      let r := pass2Node gen skipList ctx fp fuel tc e visited.2
      (.tsAs r.1, r.2)
    | m => (m, visited.2)

/-! ## The markup-child merger (`mergeChildren`, file-processor.ts:117-184) -/

/-- `normalizeJSXTextContent(value)`: `value.replace(/\r?\n\s*+/g, '')`
without the extra `+` — i.e. delete every newline (optionally preceded by
a carriage return) together with the whitespace run that follows it. -/
def normalizeJSXTextAux : List Char → List Char
  | [] => []
  | '\r' :: '\n' :: rest2 => normalizeJSXTextAux (rest2.dropWhile isJSWhitespaceCh)
  | '\r' :: rest => '\r' :: normalizeJSXTextAux rest
  | '\n' :: rest => normalizeJSXTextAux (rest.dropWhile isJSWhitespaceCh)
  | c :: rest => c :: normalizeJSXTextAux rest
  termination_by l => l.length
  decreasing_by
    all_goals simp_wf
    all_goals
      first
        | omega
        | (have h : (rest2.dropWhile isJSWhitespaceCh).length ≤ rest2.length :=
            (List.dropWhile_sublist isJSWhitespaceCh).length_le
           omega)
        | (have h : (rest.dropWhile isJSWhitespaceCh).length ≤ rest.length :=
            (List.dropWhile_sublist isJSWhitespaceCh).length_le
           omega)

def normalizeJSXTextContent (s : String) : String :=
  String.mk (normalizeJSXTextAux s.data)

/-- `t.isJSXText(child)`. -/
def isMergeText : Node → Bool
  | .jsxText _ => true
  | _ => false

/-- `t.isJSXExpressionContainer(child) &&
!t.isJSXEmptyExpression(child.expression)`. -/
def isMergeExpr : Node → Bool
  | .jsxContainer .jsxEmpty => false
  | .jsxContainer _ => true
  | _ => false

def isRunChild (n : Node) : Bool := isMergeText n || isMergeExpr n

/-- An element of the `group` array built by the inner scan. -/
inductive GroupItem where
  | text (value : String)
  | expr (e : Node)
  deriving Repr

/-- Group element of a run child: JSX text is normalized, an expression
container contributes its expression. -/
def toGroupItem : Node → GroupItem
  | .jsxText v => .text (normalizeJSXTextContent v)
  | .jsxContainer e => .expr e
  | _ => .text ""

def groupOf (run : List Node) : List GroupItem := run.map toGroupItem

/-- `hasChinese`: some text item is non-empty and contains target text. -/
def groupHasChinese (g : List GroupItem) : Bool :=
  g.any (fun it =>
    match it with
    | .text v => !(v = "") && containsChinese v
    | .expr _ => false)

/-- `hasExpression`. -/
def groupHasExpr (g : List GroupItem) : Bool :=
  g.any (fun it => match it with | .expr _ => true | .text _ => false)

/-- `hasMeaningfulText`: some text item whose `trim()` is non-empty. -/
def groupHasMeaningful (g : List GroupItem) : Bool :=
  g.any (fun it =>
    match it with
    | .text v => (jsTrim v).length > 0
    | .expr _ => false)

def groupQualifies (g : List GroupItem) : Bool :=
  groupHasChinese g && groupHasExpr g && groupHasMeaningful g

/-- The quasi/expression loop of `buildTemplateExpressionFromGroup`
(file-processor.ts:60-87). -/
def buildGroupQuasisExprs : List GroupItem → String → List String × List Node
  | [], buffer => ([buffer], [])
  | .text v :: rest, buffer => buildGroupQuasisExprs rest (buffer ++ v)
  | .expr e :: rest, buffer =>
    let r := buildGroupQuasisExprs rest ""
    (buffer :: r.1, e :: r.2)

/-- `buildTemplateExpressionFromGroup(group)`. -/
def buildTemplateExpressionFromGroup (g : List GroupItem) : Node :=
  let r := buildGroupQuasisExprs g ""
  .jsxContainer (.templateLit r.1 r.2)

/-- `mergeChildren(children)`: scan the child list; at a text/expression
child take the maximal run of such children — when the run has Chinese
text, an expression, and meaningful text, collapse it into one
interpolated-text container and continue after it; otherwise emit just
the first child and rescan from the next one. -/
def mergeChildren : List Node → List Node
  | [] => []
  | c :: rest =>
    if !(isRunChild c) then c :: mergeChildren rest
    else
      -- in this branch `c` is a run child, so the maximal run is
      -- `c :: rest.takeWhile isRunChild` and the scan resumes after it
      let run := c :: rest.takeWhile isRunChild
      let remaining := rest.dropWhile isRunChild
      let g := groupOf run
      if groupQualifies g then
        buildTemplateExpressionFromGroup g :: mergeChildren remaining
      else
        c :: mergeChildren rest
  termination_by l => l.length
  decreasing_by
    all_goals simp_wf
    all_goals
      first
        | omega
        | (have h : (rest.dropWhile isRunChild).length ≤ rest.length :=
            (List.dropWhile_sublist isRunChild).length_le
           omega)

/-- The §4.2 algorithm as the specification words it: partition the
child list into maximal runs of text/expression children, collapse
exactly the qualifying runs into a single interpolated-text node, and
leave every other run (and every other child) untouched. -/
def mergeChildrenSpec : List Node → List Node
  | [] => []
  | c :: rest =>
    if !(isRunChild c) then c :: mergeChildrenSpec rest
    else
      let run := c :: rest.takeWhile isRunChild
      let remaining := rest.dropWhile isRunChild
      let g := groupOf run
      if groupQualifies g then
        buildTemplateExpressionFromGroup g :: mergeChildrenSpec remaining
      else
        run ++ mergeChildrenSpec remaining
  termination_by l => l.length
  decreasing_by
    all_goals simp_wf
    all_goals
      first
        | omega
        | (have h : (rest.dropWhile isRunChild).length ≤ rest.length :=
            (List.dropWhile_sublist isRunChild).length_le
           omega)

/-! ## C2 idempotence: predicates over `extractValue` -/

/-- No extraction from this node at any fuel, context or state. -/
def noExtract (gen : String → String → String) (n : Node) : Prop :=
  ∀ (f : Nat) (ctx fp : String) (s : ExtractState),
    (extractValueFuel gen f n ctx fp s).1 = none

/-- No Chinese text among the literal parts of the node's flattened `+`
chain (so `buildTemplateLiteralFromBinaryExpression` cannot fire on a
chain containing it). -/
def flattenClean (n : Node) : Prop :=
  hasChineseParts (flattenBinaryExpressionParts n) = false

def noExtractList (gen : String → String → String) (l : List Node) : Prop :=
  ∀ x ∈ l, noExtract gen x

def noExtractOptList (gen : String → String → String)
    (l : List (Option Node)) : Prop :=
  ∀ x ∈ l, ∀ n, x = some n → noExtract gen n

/-- The property values of an object-literal property list extract
nothing (non-`ObjectProperty` members are skipped by the source). -/
def propValueNoExtract (gen : String → String → String) : Node → Prop
  | .objectProperty _ v _ _ => noExtract gen v
  | _ => True

/-- The `return` arguments of a statement list extract nothing. -/
def stmtArgNoExtract (gen : String → String → String) : Node → Prop
  | .returnStmt (some a) => noExtract gen a
  | _ => True

/-- A concrete key generator (`context.text`) for witness runs. -/
def gC2 : String → String → String := fun t c => c ++ "." ++ t

/-- The extraction result of `"中文"` in context `c`, file `f`, under
`gC2` and an empty table. -/
def rC2 : ExtractResult :=
  ⟨some "c.中文", createIntlGetCallExpression "c.中文" []⟩

def sC2 : ExtractState := ⟨[("c.中文", .entry "中文" "f" [])], 0⟩

/-- A left-leaning `+` chain with a Chinese literal at the innermost
position: `(..(("中B" + "a") + "a")..) + "a"`. -/
def chainC2 : Nat → Node
  | 0 => .stringLit "中B"
  | n + 1 => .binary "+" (chainC2 n) (.stringLit "a")

/-- An 11-term concatenation whose innermost literal sits beyond the
recursion bound. -/
def tC2 : Node := .binary "+" (chainC2 10) (.stringLit "中A")

/-! ## Shared lemmas -/

theorem setKey_of_not_mem (t : Translations) (k : String) (v : TransVal)
    (h : k ∉ t.map Prod.fst) : setKey t k v = t ++ [(k, v)] := by
  induction t with
  | nil => rfl
  | cons a rest ih =>
    simp only [List.map_cons, List.mem_cons] at h
    push_neg at h
    simp only [setKey, if_neg (Ne.symm h.1), List.cons_append]
    rw [ih h.2]

/-! ## C4: the recursion-depth guard -/

/-- C4: for every node and every depth `d ≥ MAX_RECURSION_DEPTH` (= 10),
`extractValue` returns `null` and emits one warning instead of recursing;
for a depth `d' < 10` extraction proceeds normally (a Chinese string
literal is extracted rather than aborted, at any state). -/
theorem c4_depth_guard (gen : String → String → String) (node : Node)
    (ctx fp : String) (s : ExtractState) (d d' : Nat) (v : String)
    (hd : MAX_RECURSION_DEPTH ≤ d) (hd' : d' < MAX_RECURSION_DEPTH)
    (hv : containsChinese v = true) :
    extractValue gen node ctx fp s d
        = (none, { s with warnings := s.warnings + 1 }) ∧
    (extractValue gen (.stringLit v) ctx fp s d').1.isSome = true := by
  constructor
  · unfold extractValue
    rw [Nat.sub_eq_zero_of_le hd]
    rfl
  · unfold extractValue
    obtain ⟨k, hk⟩ : ∃ k, MAX_RECURSION_DEPTH - d' = k + 1 :=
      ⟨MAX_RECURSION_DEPTH - d' - 1, by omega⟩
    rw [hk]
    cases hfind : findKeyForText s.translations v <;>
      simp [extractValueFuel, hv, hfind]

theorem c4_depth_guard_witness :
    extractValue (fun t c => c ++ "." ++ t) Node.other "common" "a.ts"
        ⟨[], 0⟩ 10 = (none, ⟨[], 1⟩) ∧
    (extractValue (fun t c => c ++ "." ++ t) (.stringLit "中") "common" "a.ts"
        ⟨[], 0⟩ 0).1.isSome = true :=
  c4_depth_guard (fun t c => c ++ "." ++ t) Node.other "common" "a.ts"
    ⟨[], 0⟩ 10 0 "中" (by decide) (by decide) (by decide)

/-! ## C9: `detectKeyCollisions` can never report anything -/

theorem bucketsGet_append_ne (acc : TextBuckets) (x : String × List String)
    (k : String) (hne : x.1 ≠ k) (h : bucketsGet acc k = none) :
    bucketsGet (acc ++ [x]) k = none := by
  induction acc with
  | nil => simp [bucketsGet, hne]
  | cons a rest ih =>
    simp only [bucketsGet] at h ⊢
    split at h
    · exact absurd h (by simp)
    · next hne' => simp only [List.cons_append, bucketsGet, if_neg hne']
                   exact ih h

theorem bucketsSet_of_get_none (acc : TextBuckets) (k : String)
    (v : List String) (h : bucketsGet acc k = none) :
    bucketsSet acc k v = acc ++ [(k, v)] := by
  induction acc with
  | nil => rfl
  | cons a rest ih =>
    simp only [bucketsGet] at h
    split at h
    · exact absurd h (by simp)
    · next hne =>
        simp only [bucketsSet, if_neg (fun he => hne he), List.cons_append]
        rw [ih h]

theorem buildKeyToTexts_fresh (t : Translations) :
    ∀ acc : TextBuckets, (∀ k ∈ t.map Prod.fst, bucketsGet acc k = none) →
    (t.map Prod.fst).Nodup →
    buildKeyToTexts t acc = acc ++ t.map (fun kv => (kv.1, [kv.2.textOf])) := by
  induction t with
  | nil => intro acc _ _; simp [buildKeyToTexts]
  | cons a rest ih =>
    intro acc hfresh hnodup
    simp only [List.map_cons, List.nodup_cons] at hnodup
    have hfa : bucketsGet acc a.1 = none := hfresh a.1 (by simp)
    simp only [buildKeyToTexts, hfa, Option.getD_none, List.nil_append]
    rw [bucketsSet_of_get_none acc a.1 _ hfa]
    rw [ih (acc ++ [(a.1, [a.2.textOf])]) ?_ hnodup.2]
    · simp
    · intro k hk
      have hkne : a.1 ≠ k := by
        intro he; exact hnodup.1 (he ▸ hk)
      exact bucketsGet_append_ne acc _ k hkne (hfresh k (by simp [hk]))

/-- C9: `detectKeyCollisions` returns the empty list for every
translations object — each key maps to exactly one entry, so every text
bucket it builds is a singleton and no collision can ever be reported. -/
theorem c9_detect_collisions_empty (t : Translations)
    (h : (t.map Prod.fst).Nodup) : detectKeyCollisions t = [] := by
  unfold detectKeyCollisions
  rw [buildKeyToTexts_fresh t [] (by intro k _; rfl) h]
  simp only [List.nil_append]
  rw [List.filter_eq_nil_iff.mpr, List.map_nil]
  intro b hb
  simp only [List.mem_map] at hb
  obtain ⟨kv, _, rfl⟩ := hb
  simp

theorem c9_detect_collisions_empty_witness :
    detectKeyCollisions
      [("common.hello", .entry "你好" "a.ts" []),
       ("common.save", .str "保存")] = [] :=
  c9_detect_collisions_empty _ (by decide)

/-! ## C1: key collisions are silently overwritten, never surfaced -/

/-- C1 (evaluation at the failing input): `common.hello ↦ 你好` is in the
table; a batch item `再见` misses the dedup probe and the key-generation
collaborator returns the colliding key `common.hello`.  The existing
entry is silently overwritten and the final report's collision list
(`detectKeyCollisions` over the resulting table) is empty, contradicting
the claim that the entry is preserved and the collision surfaced. -/
theorem c1_collision_silently_overwritten :
    (assignKeys (fun _ _ => "common.hello") [⟨"再见", []⟩] "common" "b.ts"
        [("common.hello", .entry "你好" "a.ts" [])] ⟨0, 0⟩).2.1
      = [("common.hello", .entry "再见" "b.ts" [])] ∧
    detectKeyCollisions
        ((assignKeys (fun _ _ => "common.hello") [⟨"再见", []⟩] "common" "b.ts"
          [("common.hello", .entry "你好" "a.ts" [])] ⟨0, 0⟩).2.1) = [] :=
  ⟨rfl, rfl⟩

/-! ## C3: the dedup signature is a sorted list, not a set -/

theorem assignKeys_singleton (gen : String → String → String)
    (i : CandidateItem) (ctx fp : String) (table : Translations)
    (st : RunStats) :
    assignKeys gen [i] ctx fp table st =
      match probeExisting table i with
      | some k => ([(i, k)], table, { st with reusedKeys := st.reusedKeys + 1 })
      | none =>
        ([(i, gen i.text ctx)],
          setKey table (gen i.text ctx)
            (.entry i.text fp (i.vars.map TplVar.name)),
          { st with interpolations := st.interpolations + i.vars.length }) := by
  cases h : probeExisting table i <;> simp [assignKeys, h]

theorem findKeyForTextVars_congr (table : Translations) (tA tB : String)
    (vA vB : List String) (ht : tA = tB)
    (hv : sortStrings vA = sortStrings vB) :
    findKeyForTextVars table tA vA = findKeyForTextVars table tB vB := by
  subst ht
  induction table with
  | nil => rfl
  | cons a rest ih => simp only [findKeyForTextVars, hv, ih]

theorem findKeyForTextVars_setKey_match (table : Translations)
    (tA tB fpA : String) (vA vB : List String) (k : String)
    (h : findKeyForTextVars table tB vB = none) (htext : tA = tB)
    (hv : sortStrings vA = sortStrings vB) :
    findKeyForTextVars (setKey table k (.entry tA fpA vA)) tB vB = some k := by
  induction table with
  | nil =>
    simp only [setKey, findKeyForTextVars]
    rw [if_pos]
    simp [TransVal.textOf, TransVal.varsOf, htext, hv]
  | cons a rest ih =>
    simp only [findKeyForTextVars] at h
    split at h
    · exact absurd h (by simp)
    · next hcond =>
        simp only [setKey]
        split
        · next hk =>
            simp only [findKeyForTextVars]
            rw [if_pos]
            simp [TransVal.textOf, TransVal.varsOf, htext, hv]
        · next hk =>
            simp only [findKeyForTextVars, if_neg hcond]
            exact ih h

/-- C3 (amended): the dedup criterion is equality of the *sorted*
interpolation-name lists; for two candidate sites with identical text and
sorted-equal interpolation names, where the second site is processed
after the first (here: in a later `collectAndGenerateKeys` run, possibly
with a different context and file), the second site is assigned the same
key — by probe reuse — and no new table entry is created. -/
theorem c3_dedup_reuse (gen : String → String → String)
    (iA iB : CandidateItem) (cA cB fpA fpB : String) (table : Translations)
    (stA stB : RunStats) (htext : iA.text = iB.text)
    (hvars : sortStrings (iA.vars.map TplVar.name)
      = sortStrings (iB.vars.map TplVar.name)) :
    ((assignKeys gen [iB] cB fpB
        (assignKeys gen [iA] cA fpA table stA).2.1 stB).1.map Prod.snd
      = (assignKeys gen [iA] cA fpA table stA).1.map Prod.snd) ∧
    ((assignKeys gen [iB] cB fpB
        (assignKeys gen [iA] cA fpA table stA).2.1 stB).2.1
      = (assignKeys gen [iA] cA fpA table stA).2.1) := by
  have hcong := findKeyForTextVars_congr table iA.text iB.text
    (iA.vars.map TplVar.name) (iB.vars.map TplVar.name) htext hvars
  cases hA : probeExisting table iA with
  | some k =>
    have hB : probeExisting table iB = some k := by
      unfold probeExisting at hA ⊢
      rw [← hcong, hA]
    rw [assignKeys_singleton gen iA cA fpA table stA, hA]
    simp only
    rw [assignKeys_singleton gen iB cB fpB table stB, hB]
    simp
  | none =>
    have hBnone : findKeyForTextVars table iB.text (iB.vars.map TplVar.name)
        = none := by
      rw [← hcong]; exact hA
    rw [assignKeys_singleton gen iA cA fpA table stA, hA]
    simp only
    have hB : probeExisting
        (setKey table (gen iA.text cA)
          (.entry iA.text fpA (iA.vars.map TplVar.name))) iB
        = some (gen iA.text cA) :=
      findKeyForTextVars_setKey_match table iA.text iB.text fpA
        (iA.vars.map TplVar.name) (iB.vars.map TplVar.name)
        (gen iA.text cA) hBnone htext hvars
    rw [assignKeys_singleton gen iB cB fpB _ stB, hB]
    simp

theorem c3_dedup_reuse_witness :
    (⟨"保存", []⟩ : CandidateItem).text = (⟨"保存", []⟩ : CandidateItem).text ∧
    sortStrings ((⟨"保存", []⟩ : CandidateItem).vars.map TplVar.name)
      = sortStrings ((⟨"保存", []⟩ : CandidateItem).vars.map TplVar.name) ∧
    (((assignKeys (fun t c => c ++ "." ++ t) [⟨"保存", []⟩] "common" "b.ts"
        (assignKeys (fun t c => c ++ "." ++ t) [⟨"保存", []⟩] "common" "a.ts"
          [] ⟨0, 0⟩).2.1 ⟨0, 0⟩).1.map Prod.snd
      = (assignKeys (fun t c => c ++ "." ++ t) [⟨"保存", []⟩] "common" "a.ts"
          [] ⟨0, 0⟩).1.map Prod.snd) ∧
    ((assignKeys (fun t c => c ++ "." ++ t) [⟨"保存", []⟩] "common" "b.ts"
        (assignKeys (fun t c => c ++ "." ++ t) [⟨"保存", []⟩] "common" "a.ts"
          [] ⟨0, 0⟩).2.1 ⟨0, 0⟩).2.1
      = (assignKeys (fun t c => c ++ "." ++ t) [⟨"保存", []⟩] "common" "a.ts"
          [] ⟨0, 0⟩).2.1)) :=
  ⟨rfl, rfl,
    c3_dedup_reuse (fun t c => c ++ "." ++ t) ⟨"保存", []⟩ ⟨"保存", []⟩
      "common" "common" "a.ts" "b.ts" [] ⟨0, 0⟩ ⟨0, 0⟩ rfl rfl⟩

/-- C3 (counterexample): two template-literal sites with the identical
text `你{x}{x}{y}` whose interpolation-name lists are equal as unordered
sets (`{x, y}` both) but different as sorted lists (`[x,x,y]` vs `[x,y]`)
do **not** receive the same key: the second site, processed in a later
file with context `b`, misses the dedup probe and generates a fresh
`b.`-prefixed key instead of reusing the `a.`-prefixed key of the first
site. -/
theorem c3_counterexample :
    (parseTemplateLiteral ["你", "", "", ""]
        [.ident "x", .ident "x", .ident "y"]).1
      = (parseTemplateLiteral ["你{x}", "", ""] [.ident "x", .ident "y"]).1 ∧
    ((parseTemplateLiteral ["你", "", "", ""]
        [.ident "x", .ident "x", .ident "y"]).2.map TplVar.name).toFinset
      = ((parseTemplateLiteral ["你{x}", "", ""]
          [.ident "x", .ident "y"]).2.map TplVar.name).toFinset ∧
    ((assignKeys (fun t c => c ++ "." ++ t)
        [⟨(parseTemplateLiteral ["你", "", "", ""]
            [.ident "x", .ident "x", .ident "y"]).1,
          (parseTemplateLiteral ["你", "", "", ""]
            [.ident "x", .ident "x", .ident "y"]).2⟩] "a" "a.ts" [] ⟨0, 0⟩).1.map
        Prod.snd
      = ["a.你{x}{x}{y}"]) ∧
    ((assignKeys (fun t c => c ++ "." ++ t)
        [⟨(parseTemplateLiteral ["你{x}", "", ""] [.ident "x", .ident "y"]).1,
          (parseTemplateLiteral ["你{x}", "", ""] [.ident "x", .ident "y"]).2⟩]
        "b" "b.ts"
        (assignKeys (fun t c => c ++ "." ++ t)
          [⟨(parseTemplateLiteral ["你", "", "", ""]
              [.ident "x", .ident "x", .ident "y"]).1,
            (parseTemplateLiteral ["你", "", "", ""]
              [.ident "x", .ident "x", .ident "y"]).2⟩] "a" "a.ts" []
          ⟨0, 0⟩).2.1 ⟨0, 0⟩).1.map Prod.snd
      = ["b.你{x}{x}{y}"]) ∧
    ("a.你{x}{x}{y}" : String) ≠ "b.你{x}{x}{y}" := by
  refine ⟨rfl, by decide, rfl, by decide, by decide⟩

/-! ## C6: the deferred-binding escape hatch -/

theorem extract_intl_call_none (gen : String → String → String) (fuel : Nat)
    (callee : Node) (args : List Node) (ctx fp : String) (s : ExtractState)
    (h : isIntlGetCall callee = true) :
    (extractValueFuel gen fuel (.call callee args) ctx fp s).1 = none := by
  cases fuel with
  | zero => rfl
  | succ f => simp [extractValueFuel, h]

theorem extract_some_not_intl (gen : String → String → String) (n : Node)
    (ctx fp : String) (s : ExtractState) (d : Nat) (res : ExtractResult)
    (s' : ExtractState) (h : extractValue gen n ctx fp s d = (some res, s')) :
    isIntlCallNode n = false := by
  by_contra hc
  rw [Bool.not_eq_false] at hc
  cases n with
  | call callee args =>
    have hi : isIntlGetCall callee = true := by
      simpa [isIntlCallNode] using hc
    have := extract_intl_call_none gen (MAX_RECURSION_DEPTH - d) callee args
      ctx fp s hi
    unfold extractValue at h
    rw [h] at this
    exact Option.noConfusion this
  | _ => simp [isIntlCallNode] at hc

/-- C6: a top-level identifier binding (`inRuntimeScope = false`) whose
(non-object, non-array) initializer's extraction yields a direct
runtime-lookup call is still substituted with that call, and an entry
`{name, key, line, column}` is appended to `stats.topLevelConstants`
(the deferred-binding warning list). -/
theorem c6_deferred_binding (gen : String → String → String)
    (idName : String) (initRaw : Node) (loc : Option (Nat × Nat))
    (ctx fp : String) (s : ExtractState) (stats : FileStats)
    (flags : VisitFlags) (res : ExtractResult) (s' : ExtractState)
    (hobj : isObjectExpressionNode (unwrapTsAs initRaw) = false)
    (harr : isArrayExpressionNode (unwrapTsAs initRaw) = false)
    (hx : extractValue gen (unwrapTsAs initRaw) ctx fp s 0 = (some res, s'))
    (hintl : isIntlCallNode res.replacement = true) :
    visitVariableDeclarator gen idName initRaw loc false ctx fp s stats flags
      = (res.replacement, s',
        { stats with
            extracted := stats.extracted + 1,
            topLevelConstants := stats.topLevelConstants
              ++ [topLevelEntryOf idName res.replacement loc] },
        { flags with needsIntlImport := true }) := by
  have hnotintl : isIntlCallNode (unwrapTsAs initRaw) = false :=
    extract_some_not_intl gen _ ctx fp s 0 res s' hx
  unfold visitVariableDeclarator
  simp only [hobj, harr, hnotintl, hx, hintl, Bool.not_false, Bool.false_and,
    Bool.and_false, Bool.true_and, Bool.and_self, if_false, if_true,
    Bool.not_true, updateImportStats, ite_true, ite_false]
  rfl

theorem c6_deferred_binding_witness :
    isIntlCallNode (createIntlGetCallExpression "common.欢迎使用控制台" [])
        = true ∧
    visitVariableDeclarator (fun t c => c ++ "." ++ t) "TITLE"
        (.stringLit "欢迎使用控制台") (some (3, 6)) false "common" "page.ts"
        ⟨[], 0⟩ ⟨0, 0, []⟩ ⟨false⟩
      = (createIntlGetCallExpression "common.欢迎使用控制台" [],
        ⟨[("common.欢迎使用控制台",
            .entry "欢迎使用控制台" "page.ts" [])], 0⟩,
        ⟨1, 0, [⟨"TITLE", some "common.欢迎使用控制台", some 3, some 6⟩]⟩,
        ⟨true⟩) :=
  ⟨rfl,
    c6_deferred_binding (fun t c => c ++ "." ++ t) "TITLE"
      (.stringLit "欢迎使用控制台") (some (3, 6)) "common" "page.ts"
      ⟨[], 0⟩ ⟨0, 0, []⟩ ⟨false⟩
      ⟨some "common.欢迎使用控制台",
        createIntlGetCallExpression "common.欢迎使用控制台" []⟩
      ⟨[("common.欢迎使用控制台",
          .entry "欢迎使用控制台" "page.ts" [])], 0⟩
      rfl rfl rfl rfl⟩

/-! ## C5: the lazy-accessor rule -/

/-- C5 (counterexample): the property `{ 1: "中文" }` — non-computed,
non-shorthand, outside any runtime scope, replacement a direct lookup
call — is **not** turned into a getter-style accessor by the rewrite: the
getter decision additionally requires an identifier or string-literal
key, so the numeric-key property keeps a plain (eagerly evaluated)
value. -/
theorem c5_counterexample :
    (visitObjectProperty (fun t c => c ++ "." ++ t)
        (.objectProperty (.numLit 1) (.stringLit "中文") false false)
        false false false "common" "f.ts" ⟨[], 0⟩ ⟨0, 0, []⟩ ⟨false⟩).1
      = Node.objectProperty (.numLit 1)
          (createIntlGetCallExpression "common.中文" []) false false ∧
    isAccessorNode
      (visitObjectProperty (fun t c => c ++ "." ++ t)
        (.objectProperty (.numLit 1) (.stringLit "中文") false false)
        false false false "common" "f.ts" ⟨[], 0⟩ ⟨0, 0, []⟩ ⟨false⟩).1
      = false :=
  ⟨rfl, rfl⟩

/-- C5 (amended): for every object property the Pass-2 `ObjectProperty`
visitor processes (not skipped as inside a lookup call, not suppressed by
the array-initializer guard) that is non-computed, non-shorthand, has an
identifier or string-literal key, sits outside any runtime scope, and
whose extracted-or-existing value is a direct runtime-lookup call, the
rewrite turns the property into a getter-style accessor returning that
call. -/
theorem c5_lazy_accessor (gen : String → String → String) (k v : Node)
    (ctx fp : String) (s : ExtractState) (stats : FileStats)
    (flags : VisitFlags) (hkey : isGetterableKey k = true)
    (hrepl : isIntlCallNode
        (match (extractValue gen v ctx fp s 0).1 with
          | some res => res.replacement
          | none => v) = true) :
    (visitObjectProperty gen (.objectProperty k v false false)
        false false false ctx fp s stats flags).1
      = createLazyGetterFromProperty k false
          (match (extractValue gen v ctx fp s 0).1 with
            | some res => res.replacement
            | none => v) ∧
    isAccessorNode
      (visitObjectProperty gen (.objectProperty k v false false)
        false false false ctx fp s stats flags).1 = true := by
  unfold visitObjectProperty
  simp only [if_neg (Bool.false_ne_true), Bool.not_false, Bool.true_and, hkey,
    hrepl, Bool.and_self, ite_true, ite_false]
  exact ⟨trivial, rfl⟩

theorem c5_lazy_accessor_witness :
    isGetterableKey (.ident "msg") = true ∧
    isIntlCallNode
      (match (extractValue (fun t c => c ++ "." ++ t) (.stringLit "中文")
          "common" "f.ts" ⟨[], 0⟩ 0).1 with
        | some res => res.replacement
        | none => (.stringLit "中文")) = true ∧
    ((visitObjectProperty (fun t c => c ++ "." ++ t)
        (.objectProperty (.ident "msg") (.stringLit "中文") false false)
        false false false "common" "f.ts" ⟨[], 0⟩ ⟨0, 0, []⟩ ⟨false⟩).1
      = createLazyGetterFromProperty (.ident "msg") false
          (match (extractValue (fun t c => c ++ "." ++ t) (.stringLit "中文")
              "common" "f.ts" ⟨[], 0⟩ 0).1 with
            | some res => res.replacement
            | none => (.stringLit "中文")) ∧
    isAccessorNode
      (visitObjectProperty (fun t c => c ++ "." ++ t)
        (.objectProperty (.ident "msg") (.stringLit "中文") false false)
        false false false "common" "f.ts" ⟨[], 0⟩ ⟨0, 0, []⟩ ⟨false⟩).1
      = true) :=
  ⟨rfl, rfl,
    c5_lazy_accessor (fun t c => c ++ "." ++ t) (.ident "msg")
      (.stringLit "中文") "common" "f.ts" ⟨[], 0⟩ ⟨0, 0, []⟩ ⟨false⟩ rfl rfl⟩

/-! ## C8 / C10: skip-listed calls -/

mutual

/-- All Chinese string-literal values occurring in a subtree
(specification-side collector used to state recording completeness). -/
def chineseStrings : Node → List String
  | .stringLit v => if containsChinese v then [v] else []
  | .templateLit _ es => chineseStringsList es
  | .conditional t c a =>
    chineseStrings t ++ chineseStrings c ++ chineseStrings a
  | .logical _ l r => chineseStrings l ++ chineseStrings r
  | .arrayLit elems => chineseStringsOptList elems
  | .binary _ l r => chineseStrings l ++ chineseStrings r
  | .call callee args => chineseStrings callee ++ chineseStringsList args
  | .member o p _ => chineseStrings o ++ chineseStrings p
  | .ident _ => []
  | .numLit _ => []
  | .objectProperty k v _ _ => chineseStrings k ++ chineseStrings v
  | .objectMethod _ k b _ => chineseStrings k ++ chineseStrings b
  | .objectLit props => chineseStringsList props
  | .jsxContainer e => chineseStrings e
  | .jsxEmpty => []
  | .jsxText _ => []
  | .funcExpr b => chineseStrings b
  | .block stmts => chineseStringsList stmts
  | .returnStmt (some a) => chineseStrings a
  | .returnStmt none => []
  | .newExpr callee args => chineseStrings callee ++ chineseStringsList args
  | .tsAs e => chineseStrings e
  | .other => []

def chineseStringsList : List Node → List String
  | [] => []
  | n :: ns => chineseStrings n ++ chineseStringsList ns

def chineseStringsOptList : List (Option Node) → List String
  | [] => []
  | none :: ns => chineseStringsOptList ns
  | some n :: ns => chineseStrings n ++ chineseStringsOptList ns

end

/-- Every recorded key of the diagnostics has a matching sample carrying
the given reason. -/
def diagReasonOk (reason : String) (d : Diagnostics) : Prop :=
  ∀ kt ∈ d.recordedKeys, ∃ smp ∈ d.unrecognizedSamples,
    smp.nodeType = kt.1 ∧ smp.text = kt.2 ∧ smp.reason = reason

/-- Monotonicity and invariant preservation for one diagnostics step. -/
structure DiagStep (reason : String) (d d' : Diagnostics) : Prop where
  samples : ∀ smp ∈ d.unrecognizedSamples, smp ∈ d'.unrecognizedSamples
  keys : ∀ kt ∈ d.recordedKeys, kt ∈ d'.recordedKeys
  inv : diagReasonOk reason d → diagReasonOk reason d'

theorem DiagStep.rfl (reason : String) (d : Diagnostics) :
    DiagStep reason d d :=
  ⟨fun _ h => h, fun _ h => h, fun h => h⟩

theorem DiagStep.trans {reason : String} {d₁ d₂ d₃ : Diagnostics}
    (h₁ : DiagStep reason d₁ d₂) (h₂ : DiagStep reason d₂ d₃) :
    DiagStep reason d₁ d₃ :=
  ⟨fun smp h => h₂.samples smp (h₁.samples smp h),
   fun kt h => h₂.keys kt (h₁.keys kt h),
   fun h => h₂.inv (h₁.inv h)⟩

theorem addSample_step (d : Diagnostics) (nt t reason : String) :
    DiagStep reason d (addUnrecognizedSample d nt t reason) := by
  unfold addUnrecognizedSample
  split
  · exact DiagStep.rfl reason d
  · refine ⟨fun smp h => by simp [h], fun kt h => by simp [h], ?_⟩
    intro hok kt hkt
    simp only [List.mem_append, List.mem_singleton] at hkt
    cases hkt with
    | inl h =>
      obtain ⟨smp, hm, hp⟩ := hok kt h
      exact ⟨smp, by simp [hm], hp⟩
    | inr h =>
      subst h
      exact ⟨⟨t, nt, reason⟩, by simp, rfl, rfl, rfl⟩

theorem addSample_mem (d : Diagnostics) (nt t reason : String) :
    (nt, t) ∈ (addUnrecognizedSample d nt t reason).recordedKeys := by
  unfold addUnrecognizedSample
  split
  · assumption
  · simp

mutual

theorem collectUnrec_step (reason : String) (n : Node) :
    ∀ d, DiagStep reason d (collectUnrec reason n d) := by
  cases n with
  | stringLit v =>
    intro d
    unfold collectUnrec
    split
    · exact addSample_step d _ _ _
    · exact DiagStep.rfl reason d
  | templateLit qs es =>
    intro d
    unfold collectUnrec
    dsimp only
    split
    · exact (addSample_step d _ _ _).trans (collectUnrecList_step reason es _)
    · exact collectUnrecList_step reason es d
  | jsxText v =>
    intro d
    unfold collectUnrec
    dsimp only
    split
    · exact addSample_step d _ _ _
    · exact DiagStep.rfl reason d
  | conditional t c a =>
    intro d
    exact ((collectUnrec_step reason t d).trans
      (collectUnrec_step reason c _)).trans (collectUnrec_step reason a _)
  | logical op l r =>
    intro d
    exact (collectUnrec_step reason l d).trans (collectUnrec_step reason r _)
  | arrayLit elems => intro d; exact collectUnrecOptList_step reason elems d
  | binary op l r =>
    intro d
    exact (collectUnrec_step reason l d).trans (collectUnrec_step reason r _)
  | call callee args =>
    intro d
    exact (collectUnrec_step reason callee d).trans
      (collectUnrecList_step reason args _)
  | member o p c =>
    intro d
    exact (collectUnrec_step reason o d).trans (collectUnrec_step reason p _)
  | ident _ => intro d; exact DiagStep.rfl reason d
  | numLit _ => intro d; exact DiagStep.rfl reason d
  | objectProperty k v comp sh =>
    intro d
    exact (collectUnrec_step reason k d).trans (collectUnrec_step reason v _)
  | objectMethod kind k b comp =>
    intro d
    exact (collectUnrec_step reason k d).trans (collectUnrec_step reason b _)
  | objectLit props => intro d; exact collectUnrecList_step reason props d
  | jsxContainer e => intro d; exact collectUnrec_step reason e d
  | jsxEmpty => intro d; exact DiagStep.rfl reason d
  | funcExpr b => intro d; exact collectUnrec_step reason b d
  | block stmts => intro d; exact collectUnrecList_step reason stmts d
  | returnStmt a =>
    intro d
    cases a with
    | some x => exact collectUnrec_step reason x d
    | none => exact DiagStep.rfl reason d
  | newExpr callee args =>
    intro d
    exact (collectUnrec_step reason callee d).trans
      (collectUnrecList_step reason args _)
  | tsAs e => intro d; exact collectUnrec_step reason e d
  | other => intro d; exact DiagStep.rfl reason d

theorem collectUnrecList_step (reason : String) (l : List Node) :
    ∀ d, DiagStep reason d (collectUnrecList reason l d) := by
  cases l with
  | nil => intro d; exact DiagStep.rfl reason d
  | cons n ns =>
    intro d
    exact (collectUnrec_step reason n d).trans (collectUnrecList_step reason ns _)

theorem collectUnrecOptList_step (reason : String) (l : List (Option Node)) :
    ∀ d, DiagStep reason d (collectUnrecOptList reason l d) := by
  cases l with
  | nil => intro d; exact DiagStep.rfl reason d
  | cons n ns =>
    cases n with
    | none => intro d; exact collectUnrecOptList_step reason ns d
    | some x =>
      intro d
      exact (collectUnrec_step reason x d).trans
        (collectUnrecOptList_step reason ns _)

end

mutual

theorem collectUnrec_complete (reason : String) (n : Node) :
    ∀ d t, t ∈ chineseStrings n →
      ("string-literal", t) ∈ (collectUnrec reason n d).recordedKeys := by
  cases n with
  | stringLit v =>
    intro d t ht
    simp only [chineseStrings] at ht
    split at ht
    · next hch =>
        simp only [List.mem_singleton] at ht
        subst ht
        simp only [collectUnrec, hch, if_true]
        exact addSample_mem d _ _ _
    · simp at ht
  | templateLit qs es =>
    intro d t ht
    simp only [chineseStrings] at ht
    simp only [collectUnrec]
    split
    · exact collectUnrecList_complete reason es _ t ht
    · exact collectUnrecList_complete reason es _ t ht
  | conditional tn c a =>
    intro d t ht
    simp only [chineseStrings, List.mem_append] at ht
    simp only [collectUnrec]
    rcases ht with (ht | ht) | ht
    · exact ((collectUnrec_step reason c _).trans
        (collectUnrec_step reason a _)).keys _
        (collectUnrec_complete reason tn d t ht)
    · exact (collectUnrec_step reason a _).keys _
        (collectUnrec_complete reason c _ t ht)
    · exact collectUnrec_complete reason a _ t ht
  | logical op l r =>
    intro d t ht
    simp only [chineseStrings, List.mem_append] at ht
    simp only [collectUnrec]
    rcases ht with ht | ht
    · exact (collectUnrec_step reason r _).keys _
        (collectUnrec_complete reason l d t ht)
    · exact collectUnrec_complete reason r _ t ht
  | arrayLit elems =>
    intro d t ht
    simp only [chineseStrings] at ht
    simp only [collectUnrec]
    exact collectUnrecOptList_complete reason elems d t ht
  | binary op l r =>
    intro d t ht
    simp only [chineseStrings, List.mem_append] at ht
    simp only [collectUnrec]
    rcases ht with ht | ht
    · exact (collectUnrec_step reason r _).keys _
        (collectUnrec_complete reason l d t ht)
    · exact collectUnrec_complete reason r _ t ht
  | call callee args =>
    intro d t ht
    simp only [chineseStrings, List.mem_append] at ht
    simp only [collectUnrec]
    rcases ht with ht | ht
    · exact (collectUnrecList_step reason args _).keys _
        (collectUnrec_complete reason callee d t ht)
    · exact collectUnrecList_complete reason args _ t ht
  | member o p c =>
    intro d t ht
    simp only [chineseStrings, List.mem_append] at ht
    simp only [collectUnrec]
    rcases ht with ht | ht
    · exact (collectUnrec_step reason p _).keys _
        (collectUnrec_complete reason o d t ht)
    · exact collectUnrec_complete reason p _ t ht
  | ident _ => intro d t ht; simp [chineseStrings] at ht
  | numLit _ => intro d t ht; simp [chineseStrings] at ht
  | objectProperty k v comp sh =>
    intro d t ht
    simp only [chineseStrings, List.mem_append] at ht
    simp only [collectUnrec]
    rcases ht with ht | ht
    · exact (collectUnrec_step reason v _).keys _
        (collectUnrec_complete reason k d t ht)
    · exact collectUnrec_complete reason v _ t ht
  | objectMethod kind k b comp =>
    intro d t ht
    simp only [chineseStrings, List.mem_append] at ht
    simp only [collectUnrec]
    rcases ht with ht | ht
    · exact (collectUnrec_step reason b _).keys _
        (collectUnrec_complete reason k d t ht)
    · exact collectUnrec_complete reason b _ t ht
  | objectLit props =>
    intro d t ht
    simp only [chineseStrings] at ht
    simp only [collectUnrec]
    exact collectUnrecList_complete reason props d t ht
  | jsxContainer e =>
    intro d t ht
    simp only [chineseStrings] at ht
    simp only [collectUnrec]
    exact collectUnrec_complete reason e d t ht
  | jsxEmpty => intro d t ht; simp [chineseStrings] at ht
  | jsxText _ => intro d t ht; simp [chineseStrings] at ht
  | funcExpr b =>
    intro d t ht
    simp only [chineseStrings] at ht
    simp only [collectUnrec]
    exact collectUnrec_complete reason b d t ht
  | block stmts =>
    intro d t ht
    simp only [chineseStrings] at ht
    simp only [collectUnrec]
    exact collectUnrecList_complete reason stmts d t ht
  | returnStmt a =>
    intro d t ht
    cases a with
    | some x =>
      simp only [chineseStrings] at ht
      simp only [collectUnrec]
      exact collectUnrec_complete reason x d t ht
    | none => simp [chineseStrings] at ht
  | newExpr callee args =>
    intro d t ht
    simp only [chineseStrings, List.mem_append] at ht
    simp only [collectUnrec]
    rcases ht with ht | ht
    · exact (collectUnrecList_step reason args _).keys _
        (collectUnrec_complete reason callee d t ht)
    · exact collectUnrecList_complete reason args _ t ht
  | tsAs e =>
    intro d t ht
    simp only [chineseStrings] at ht
    simp only [collectUnrec]
    exact collectUnrec_complete reason e d t ht
  | other => intro d t ht; simp [chineseStrings] at ht

theorem collectUnrecList_complete (reason : String) (l : List Node) :
    ∀ d t, t ∈ chineseStringsList l →
      ("string-literal", t) ∈ (collectUnrecList reason l d).recordedKeys := by
  cases l with
  | nil => intro d t ht; simp [chineseStringsList] at ht
  | cons n ns =>
    intro d t ht
    simp only [chineseStringsList, List.mem_append] at ht
    simp only [collectUnrecList]
    rcases ht with ht | ht
    · exact (collectUnrecList_step reason ns _).keys _
        (collectUnrec_complete reason n d t ht)
    · exact collectUnrecList_complete reason ns _ t ht

theorem collectUnrecOptList_complete (reason : String)
    (l : List (Option Node)) :
    ∀ d t, t ∈ chineseStringsOptList l →
      ("string-literal", t) ∈ (collectUnrecOptList reason l d).recordedKeys := by
  cases l with
  | nil => intro d t ht; simp [chineseStringsOptList] at ht
  | cons n ns =>
    cases n with
    | none =>
      intro d t ht
      simp only [chineseStringsOptList] at ht
      simp only [collectUnrecOptList]
      exact collectUnrecOptList_complete reason ns d t ht
    | some x =>
      intro d t ht
      simp only [chineseStringsOptList, List.mem_append] at ht
      simp only [collectUnrecOptList]
      rcases ht with ht | ht
      · exact (collectUnrecOptList_step reason ns _).keys _
          (collectUnrec_complete reason x d t ht)
      · exact collectUnrecOptList_complete reason ns _ t ht

end

/-- The Chinese string literals strictly inside the arguments of a call
(each argument's descendants — the recorder's reach). -/
def argsChineseStrings : List Node → List String
  | [] => []
  | a :: rest => chineseStringsList (childNodes a) ++ argsChineseStrings rest

theorem collectFromArgs_cons (reason : String) (a : Node) (rest : List Node)
    (d : Diagnostics) :
    collectFromArgs reason (a :: rest) d
      = collectFromArgs reason rest (collectUnrecList reason (childNodes a) d) := by
  simp [collectFromArgs]

theorem collectFromArgs_step (reason : String) (args : List Node) :
    ∀ d, DiagStep reason d (collectFromArgs reason args d) := by
  induction args with
  | nil => intro d; exact DiagStep.rfl reason d
  | cons a rest ih =>
    intro d
    rw [collectFromArgs_cons]
    exact (collectUnrecList_step reason (childNodes a) d).trans (ih _)

theorem collectFromArgs_complete (reason : String) (args : List Node) :
    ∀ d t, t ∈ argsChineseStrings args →
      ("string-literal", t) ∈ (collectFromArgs reason args d).recordedKeys := by
  induction args with
  | nil => intro d t ht; simp [argsChineseStrings] at ht
  | cons a rest ih =>
    intro d t ht
    simp only [argsChineseStrings, List.mem_append] at ht
    rw [collectFromArgs_cons]
    rcases ht with ht | ht
    · exact (collectFromArgs_step reason rest _).keys _
        (collectUnrecList_complete reason (childNodes a) d t ht)
    · exact ih _ t ht

theorem collectFromArgs_records (reason : String) (args : List Node)
    (t : String) (h : t ∈ argsChineseStrings args) :
    ∃ smp ∈ (collectFromArgs reason args ⟨[], []⟩).unrecognizedSamples,
      smp.nodeType = "string-literal" ∧ smp.text = t ∧ smp.reason = reason := by
  have hkey := collectFromArgs_complete reason args ⟨[], []⟩ t h
  have hinv : diagReasonOk reason (collectFromArgs reason args ⟨[], []⟩) :=
    (collectFromArgs_step reason args ⟨[], []⟩).inv
      (by intro kt hkt; simp [Diagnostics.recordedKeys] at hkt)
  exact hinv _ hkey

set_option maxRecDepth 10000 in
/-- C8 (counterexample): with `console` on the skip list, running the
Pass-2 walk on `console.log(x === "中文")` records the text as
unrecognized with reason `skipFunctionCall:console.log`, yet the text is
*still* wrapped in a lookup call — the comparison `BinaryExpression`
visitor fires on the argument's subexpression after the `CallExpression`
visitor returned — contradicting "no target text in its arguments is
extracted or wrapped in a lookup call". -/
theorem c8_counterexample :
    (pass2Node (fun t c => c ++ "." ++ t) ["console"] "common" "f.ts" 6
        ⟨false, false, false⟩
        (.call (.member (.ident "console") (.ident "log") false)
          [.binary "===" (.ident "x") (.stringLit "中文")])
        ⟨⟨[], 0⟩, ⟨[], []⟩, ⟨0, 0, []⟩, ⟨false⟩⟩).1
      = Node.call (.member (.ident "console") (.ident "log") false)
          [.binary "===" (.ident "x")
            (createIntlGetCallExpression "common.中文" [])] ∧
    (pass2Node (fun t c => c ++ "." ++ t) ["console"] "common" "f.ts" 6
        ⟨false, false, false⟩
        (.call (.member (.ident "console") (.ident "log") false)
          [.binary "===" (.ident "x") (.stringLit "中文")])
        ⟨⟨[], 0⟩, ⟨[], []⟩, ⟨0, 0, []⟩, ⟨false⟩⟩).2.diags.unrecognizedSamples
      = [⟨"中文", "string-literal", "skipFunctionCall:console.log"⟩] :=
  ⟨rfl, rfl⟩

/-- C8 (amended): for a skip-listed callee the Pass-2 `CallExpression`
visitor itself extracts nothing — node, extraction state, stats and flags
are returned unchanged — and every Chinese string literal strictly inside
the arguments is recorded as unrecognized with reason
`skipFunctionCall:<resolved name>` (starting from empty diagnostics);
a Chinese *direct* string-literal argument is likewise recorded with that
reason by the Pass-1 `StringLiteral` visitor and is not collected for
extraction.  Text nested in argument subexpressions can still be wrapped
by other visitors of the same pass (see the counterexample). -/
theorem c8_skip_list (gen : String → String → String) (skipList : List String)
    (callee : Node) (args : List Node) (ctx fp : String) (s : ExtractState)
    (d : Diagnostics) (stats : FileStats) (flags : VisitFlags)
    (hT : isTranslationCallCallee callee = false)
    (hP : isPromiseRejectCallee callee = false)
    (hskip : shouldSkipFunctionCall (getFunctionName callee) skipList = true) :
    (visitCallExpression gen skipList callee args ctx fp s d stats flags
      = (.call callee args, s,
        collectFromArgs
          ("skipFunctionCall:" ++ (getFunctionName callee).getD "unknown")
          args d, stats, flags)) ∧
    (∀ t ∈ argsChineseStrings args,
      ∃ smp ∈ (collectFromArgs
          ("skipFunctionCall:" ++ (getFunctionName callee).getD "unknown")
          args ⟨[], []⟩).unrecognizedSamples,
        smp.nodeType = "string-literal" ∧ smp.text = t ∧
        smp.reason
          = "skipFunctionCall:" ++ (getFunctionName callee).getD "unknown") ∧
    (∀ (value : String) (ancestors : List Node) (d' : Diagnostics),
      containsChinese value = true → shouldSkipNode ancestors = false →
      collectStringLiteral gen skipList value ancestors (some callee) true
          false ctx fp d'
        = (addUnrecognizedSample d' "string-literal" value
            ("skipFunctionCall:" ++ (getFunctionName callee).getD "anonymous"),
          false)) := by
  refine ⟨?_, ?_, ?_⟩
  · unfold visitCallExpression
    simp [hT, hP, hskip]
  · intro t ht
    exact collectFromArgs_records _ args t ht
  · intro value ancestors d' hv hanc
    unfold collectStringLiteral getSkippedFunctionForPath
    simp [hv, hanc, hskip]

theorem c8_skip_list_witness :
    shouldSkipFunctionCall
        (getFunctionName (.member (.ident "console") (.ident "log") false))
        ["console"] = true ∧
    (visitCallExpression (fun t c => c ++ "." ++ t) ["console"]
        (.member (.ident "console") (.ident "log") false)
        [.stringLit "调试信息"] "common" "f.ts" ⟨[], 0⟩ ⟨[], []⟩
        ⟨0, 0, []⟩ ⟨false⟩
      = (.call (.member (.ident "console") (.ident "log") false)
          [.stringLit "调试信息"], ⟨[], 0⟩,
        collectFromArgs "skipFunctionCall:console.log"
          [.stringLit "调试信息"] ⟨[], []⟩, ⟨0, 0, []⟩, ⟨false⟩)) ∧
    (collectStringLiteral (fun t c => c ++ "." ++ t) ["console"] "调试信息"
        [] (some (.member (.ident "console") (.ident "log") false)) true
        false "common" "f.ts" ⟨[], []⟩
      = (addUnrecognizedSample ⟨[], []⟩ "string-literal" "调试信息"
          "skipFunctionCall:console.log", false)) := by
  have h := c8_skip_list (fun t c => c ++ "." ++ t) ["console"]
    (.member (.ident "console") (.ident "log") false) [.stringLit "调试信息"]
    "common" "f.ts" ⟨[], 0⟩ ⟨[], []⟩ ⟨0, 0, []⟩ ⟨false⟩ rfl rfl rfl
  exact ⟨rfl, h.1, h.2.2 "调试信息" [] ⟨[], []⟩ rfl rfl⟩

/-- C10 (counterexample): a call whose callee is itself a call result
(`(f())("你好")`) resolves to a `null` name; its Chinese direct string
argument *is* suppressed, but the collection pass records it with reason
`skipFunctionCall:anonymous` — not `skipFunctionCall:unknown` as claimed
(the `unknown` fallback lives only in the Pass-2 argument recorder, which
never visits an argument's own root node and records nothing here). -/
theorem c10_counterexample :
    getFunctionName (.call (.ident "f") []) = none ∧
    collectStringLiteral (fun t c => c ++ "." ++ t) [] "你好"
        [.call (.call (.ident "f") []) [.stringLit "你好"]]
        (some (.call (.ident "f") [])) true false "common" "f.ts" ⟨[], []⟩
      = (⟨[("string-literal", "你好")],
          [⟨"你好", "string-literal", "skipFunctionCall:anonymous"⟩]⟩, false) ∧
    ("skipFunctionCall:anonymous" : String) ≠ "skipFunctionCall:unknown" ∧
    collectFromArgs "skipFunctionCall:unknown" [.stringLit "你好"] ⟨[], []⟩
      = ⟨[], []⟩ :=
  ⟨rfl, rfl, by decide, rfl⟩

/-- C10 (amended): `shouldSkipFunctionCall` does return `true` for every
`null`/empty resolved name regardless of the configured skip list, and
the Pass-2 `CallExpression` visitor then extracts nothing from the
arguments, passing reason `skipFunctionCall:unknown` to its recorder;
but that recorder only visits strict descendants of each argument, and
string/template text in such arguments is recorded during the collection
pass with reason `skipFunctionCall:anonymous` instead; nested text can
moreover still be wrapped by other visitors of the pass. -/
theorem c10_null_callee_name (gen : String → String → String)
    (skipList : List String) (callee : Node) (args : List Node)
    (ctx fp : String) (s : ExtractState) (d : Diagnostics)
    (stats : FileStats) (flags : VisitFlags)
    (hname : getFunctionName callee = none)
    (hT : isTranslationCallCallee callee = false)
    (hP : isPromiseRejectCallee callee = false) :
    shouldSkipFunctionCall none skipList = true ∧
    shouldSkipFunctionCall (some "") skipList = true ∧
    (visitCallExpression gen skipList callee args ctx fp s d stats flags
      = (.call callee args, s,
        collectFromArgs "skipFunctionCall:unknown" args d, stats, flags)) ∧
    (∀ (value : String) (ancestors : List Node) (d' : Diagnostics),
      containsChinese value = true → shouldSkipNode ancestors = false →
      collectStringLiteral gen skipList value ancestors (some callee) true
          false ctx fp d'
        = (addUnrecognizedSample d' "string-literal" value
            "skipFunctionCall:anonymous", false)) := by
  have hskip : shouldSkipFunctionCall (getFunctionName callee) skipList
      = true := by rw [hname]; rfl
  refine ⟨rfl, by simp [shouldSkipFunctionCall], ?_, ?_⟩
  · unfold visitCallExpression
    simp [hT, hP, hname, shouldSkipFunctionCall]
  · intro value ancestors d' hv hanc
    unfold collectStringLiteral getSkippedFunctionForPath
    simp [hv, hanc, hname, shouldSkipFunctionCall]

theorem c10_null_callee_name_witness :
    getFunctionName (.call (.ident "f") []) = none ∧
    (shouldSkipFunctionCall none ["console"] = true ∧
    shouldSkipFunctionCall (some "") ["console"] = true ∧
    (visitCallExpression (fun t c => c ++ "." ++ t) ["console"]
        (.call (.ident "f") []) [.stringLit "你好"] "common" "f.ts"
        ⟨[], 0⟩ ⟨[], []⟩ ⟨0, 0, []⟩ ⟨false⟩
      = (.call (.call (.ident "f") []) [.stringLit "你好"], ⟨[], 0⟩,
        collectFromArgs "skipFunctionCall:unknown" [.stringLit "你好"]
          ⟨[], []⟩, ⟨0, 0, []⟩, ⟨false⟩)) ∧
    (∀ (value : String) (ancestors : List Node) (d' : Diagnostics),
      containsChinese value = true → shouldSkipNode ancestors = false →
      collectStringLiteral (fun t c => c ++ "." ++ t) ["console"] value
          ancestors (some (.call (.ident "f") [])) true false "common" "f.ts" d'
        = (addUnrecognizedSample d' "string-literal" value
            "skipFunctionCall:anonymous", false))) :=
  ⟨rfl,
    c10_null_callee_name (fun t c => c ++ "." ++ t) ["console"]
      (.call (.ident "f") []) [.stringLit "你好"] "common" "f.ts"
      ⟨[], 0⟩ ⟨[], []⟩ ⟨0, 0, []⟩ ⟨false⟩ rfl rfl rfl⟩

/-! ## C7: the markup-child merger -/

theorem groupQualifies_cons (it : GroupItem) (g : List GroupItem)
    (h : groupQualifies g = true) : groupQualifies (it :: g) = true := by
  unfold groupQualifies groupHasChinese groupHasExpr groupHasMeaningful at h ⊢
  simp only [Bool.and_eq_true] at h
  obtain ⟨⟨h1, h2⟩, h3⟩ := h
  simp only [List.any_cons, h1, h2, h3, Bool.or_true, Bool.and_self]

theorem groupQualifies_cons_false (it : GroupItem) (g : List GroupItem)
    (h : groupQualifies (it :: g) = false) : groupQualifies g = false := by
  by_contra hq
  rw [Bool.not_eq_false] at hq
  rw [groupQualifies_cons it g hq] at h
  simp at h

theorem mergeChildren_nil : mergeChildren [] = [] := by
  rw [mergeChildren]

theorem mergeChildrenSpec_nil : mergeChildrenSpec [] = [] := by
  rw [mergeChildrenSpec]

theorem mergeChildren_cons_nonrun (c : Node) (rest : List Node)
    (hc : isRunChild c = false) :
    mergeChildren (c :: rest) = c :: mergeChildren rest := by
  conv_lhs => rw [mergeChildren]
  simp [hc]

theorem mergeChildren_cons_qualify (c : Node) (rest : List Node)
    (hc : isRunChild c = true)
    (hq : groupQualifies (groupOf (c :: rest.takeWhile isRunChild)) = true) :
    mergeChildren (c :: rest)
      = buildTemplateExpressionFromGroup
          (groupOf (c :: rest.takeWhile isRunChild))
        :: mergeChildren (rest.dropWhile isRunChild) := by
  conv_lhs => rw [mergeChildren]
  simp [hc, hq]

theorem mergeChildren_cons_fail (c : Node) (rest : List Node)
    (hc : isRunChild c = true)
    (hq : groupQualifies (groupOf (c :: rest.takeWhile isRunChild)) = false) :
    mergeChildren (c :: rest) = c :: mergeChildren rest := by
  conv_lhs => rw [mergeChildren]
  simp [hc, hq]

theorem mergeChildrenSpec_cons_nonrun (c : Node) (rest : List Node)
    (hc : isRunChild c = false) :
    mergeChildrenSpec (c :: rest) = c :: mergeChildrenSpec rest := by
  conv_lhs => rw [mergeChildrenSpec]
  simp [hc]

theorem mergeChildrenSpec_cons_qualify (c : Node) (rest : List Node)
    (hc : isRunChild c = true)
    (hq : groupQualifies (groupOf (c :: rest.takeWhile isRunChild)) = true) :
    mergeChildrenSpec (c :: rest)
      = buildTemplateExpressionFromGroup
          (groupOf (c :: rest.takeWhile isRunChild))
        :: mergeChildrenSpec (rest.dropWhile isRunChild) := by
  conv_lhs => rw [mergeChildrenSpec]
  simp [hc, hq]

theorem mergeChildrenSpec_cons_fail (c : Node) (rest : List Node)
    (hc : isRunChild c = true)
    (hq : groupQualifies (groupOf (c :: rest.takeWhile isRunChild)) = false) :
    mergeChildrenSpec (c :: rest)
      = (c :: rest.takeWhile isRunChild)
        ++ mergeChildrenSpec (rest.dropWhile isRunChild) := by
  conv_lhs => rw [mergeChildrenSpec]
  simp [hc, hq]

theorem mergeChildren_run_fail (l : List Node)
    (h : groupQualifies (groupOf (l.takeWhile isRunChild)) = false) :
    mergeChildren l
      = l.takeWhile isRunChild ++ mergeChildren (l.dropWhile isRunChild) := by
  induction l with
  | nil => simp [List.takeWhile, List.dropWhile]
  | cons c rest ih =>
    by_cases hc : isRunChild c
    · have htake : (c :: rest).takeWhile isRunChild
          = c :: rest.takeWhile isRunChild := by
        simp [List.takeWhile_cons, hc]
      have hdrop : (c :: rest).dropWhile isRunChild
          = rest.dropWhile isRunChild := by
        simp [List.dropWhile_cons, hc]
      rw [htake] at h
      have h' : groupQualifies (groupOf (rest.takeWhile isRunChild)) = false :=
        groupQualifies_cons_false _ _ (by simpa [groupOf] using h)
      rw [htake, hdrop, mergeChildren_cons_fail c rest hc h, ih h']
      simp
    · have hcb : isRunChild c = false := by simpa using hc
      have htake : (c :: rest).takeWhile isRunChild = [] := by
        simp [List.takeWhile_cons, hcb]
      have hdrop : (c :: rest).dropWhile isRunChild = c :: rest := by
        simp [List.dropWhile_cons, hcb]
      rw [htake, hdrop]
      simp

/-- C7: the source scan (`mergeChildren`) coincides with the §4.2
specification (`mergeChildrenSpec`) on every child list — a maximal run
of text/expression children is collapsed into a single interpolated-text
container exactly when it has Chinese text in some text segment, at least
one expression, and a non-whitespace text segment; every other run (and
every non-run child) is left unchanged.  In particular the source's
retry-from-the-second-element behaviour on a failed run never collapses a
sub-run, because the qualification conditions are monotone. -/
theorem c7_merge_children_spec :
    ∀ l : List Node, mergeChildren l = mergeChildrenSpec l
  | [] => by rw [mergeChildren_nil, mergeChildrenSpec_nil]
  | c :: rest => by
    by_cases hc : isRunChild c
    · by_cases hq :
        groupQualifies (groupOf (c :: rest.takeWhile isRunChild)) = true
      · rw [mergeChildren_cons_qualify c rest hc hq,
          mergeChildrenSpec_cons_qualify c rest hc hq,
          c7_merge_children_spec (rest.dropWhile isRunChild)]
      · rw [Bool.not_eq_true] at hq
        have h' : groupQualifies (groupOf (rest.takeWhile isRunChild))
            = false :=
          groupQualifies_cons_false _ _ (by simpa [groupOf] using hq)
        rw [mergeChildren_cons_fail c rest hc hq,
          mergeChildrenSpec_cons_fail c rest hc hq,
          mergeChildren_run_fail rest h',
          c7_merge_children_spec (rest.dropWhile isRunChild)]
        simp
    · have hcb : isRunChild c = false := by simpa using hc
      rw [mergeChildren_cons_nonrun c rest hcb,
        mergeChildrenSpec_cons_nonrun c rest hcb,
        c7_merge_children_spec rest]
  termination_by l => l.length
  decreasing_by
    all_goals simp_wf
    all_goals
      first
        | omega
        | (have h : (rest.dropWhile isRunChild).length ≤ rest.length :=
            (List.dropWhile_sublist isRunChild).length_le
           omega)

/-! ## C2: idempotence of `extractValue` -/

theorem containsChinese_append (a b : String) :
    containsChinese (a ++ b) = (containsChinese a || containsChinese b) := by
  unfold containsChinese
  rw [String.data_append, List.any_append]

theorem exprListWith_warn (f : Node → ExtractState → Option ExtractResult × ExtractState)
    (hf : ∀ n s, s.warnings ≤ (f n s).2.warnings) :
    ∀ (l : List Node) (s : ExtractState),
      s.warnings ≤ (extractExprListWith f l s).2.2.warnings := by
  intro l
  induction l with
  | nil => intro s; exact Nat.le.refl
  | cons n ns ih =>
    intro s
    have h1 := hf n s
    have h2 := ih (f n s).2
    simp only [extractExprListWith]
    cases (f n s).1 <;> simp <;> omega

theorem elemListWith_warn (f : Node → ExtractState → Option ExtractResult × ExtractState)
    (hf : ∀ n s, s.warnings ≤ (f n s).2.warnings) :
    ∀ (l : List (Option Node)) (s : ExtractState),
      s.warnings ≤ (extractElemListWith f l s).2.2.warnings := by
  intro l
  induction l with
  | nil => intro s; exact Nat.le.refl
  | cons n ns ih =>
    intro s
    cases n with
    | none => exact ih s
    | some x =>
      have h1 := hf x s
      have h2 := ih (f x s).2
      simp only [extractElemListWith]
      cases (f x s).1 <;> simp <;> omega

theorem propListWith_warn (f : Node → ExtractState → Option ExtractResult × ExtractState)
    (hf : ∀ n s, s.warnings ≤ (f n s).2.warnings) :
    ∀ (l : List Node) (s : ExtractState),
      s.warnings ≤ (extractPropListWith f l s).2.2.warnings := by
  intro l
  induction l with
  | nil => intro s; exact Nat.le.refl
  | cons p ps ih =>
    intro s
    cases p with
    | objectProperty k v comp sh =>
      have h1 := hf v s
      have h2 := ih (f v s).2
      simp only [extractPropListWith]
      cases (f v s).1 <;> simp <;> omega
    | _ => exact ih s

theorem stmtListWith_warn (f : Node → ExtractState → Option ExtractResult × ExtractState)
    (hf : ∀ n s, s.warnings ≤ (f n s).2.warnings) :
    ∀ (l : List Node) (s : ExtractState),
      s.warnings ≤ (extractStmtListWith f l s).2.2.warnings := by
  intro l
  induction l with
  | nil => intro s; exact Nat.le.refl
  | cons st sts ih =>
    intro s
    cases st with
    | returnStmt a =>
      cases a with
      | none => exact ih s
      | some arg =>
        have h1 := hf arg s
        have h2 := ih (f arg s).2
        simp only [extractStmtListWith]
        cases (f arg s).1 <;> simp <;> omega
    | _ => exact ih s

theorem extractValueFuel_warn (gen : String → String → String) :
    ∀ (f : Nat) (n : Node) (ctx fp : String) (s : ExtractState),
      s.warnings ≤ (extractValueFuel gen f n ctx fp s).2.warnings := by
  intro f
  induction f with
  | zero =>
    intro n ctx fp s
    simp only [extractValueFuel]
    omega
  | succ f ih =>
    intro n ctx fp s
    cases n with
    | stringLit v =>
      simp only [extractValueFuel]
      split
      · exact Nat.le.refl
      · split <;> simp
    | templateLit qs es =>
      have h1 := exprListWith_warn (fun n s' => extractValueFuel gen f n ctx fp s')
        (fun n s' => ih n ctx fp s') es s
      simp only [extractValueFuel]
      split
      · exact h1
      · split
        · split <;> simp <;> omega
        · split
          · exact h1
          · exact h1
    | conditional t c a =>
      have h1 := ih c ctx fp s
      have h2 := ih a ctx fp (extractValueFuel gen f c ctx fp s).2
      simp only [extractValueFuel]
      split <;> simp <;> omega
    | logical op l rn =>
      have h1 := ih l ctx fp s
      have h2 := ih rn ctx fp (extractValueFuel gen f l ctx fp s).2
      simp only [extractValueFuel]
      split <;> simp <;> omega
    | arrayLit elems =>
      have h1 := elemListWith_warn (fun n s' => extractValueFuel gen f n ctx fp s')
        (fun n s' => ih n ctx fp s') elems s
      simp only [extractValueFuel]
      split <;> exact h1
    | binary op l rn =>
      by_cases hop : op = "+"
      · subst hop
        simp only [extractValueFuel, reduceIte]
        cases hconv : buildTemplateLiteralFromBinaryExpression (.binary "+" l rn) with
        | some tpl =>
          simp only [hconv]
          have h1 := ih tpl ctx fp s
          have h2 := ih l ctx fp (extractValueFuel gen f tpl ctx fp s).2
          have h3 := ih rn ctx fp
            (extractValueFuel gen f l ctx fp (extractValueFuel gen f tpl ctx fp s).2).2
          split
          · refine le_trans h1 ?_
            exact Nat.le.refl
          · split <;> simp <;> omega
        | none =>
          simp only [hconv]
          have h2 := ih l ctx fp s
          have h3 := ih rn ctx fp (extractValueFuel gen f l ctx fp s).2
          split <;> simp <;> omega
      · simp only [extractValueFuel, if_neg hop]
        exact Nat.le.refl
    | call callee args =>
      have h1 := exprListWith_warn (fun n s' => extractValueFuel gen f n ctx fp s')
        (fun n s' => ih n ctx fp s') args s
      simp only [extractValueFuel]
      split
      · exact Nat.le.refl
      · split <;> exact h1
    | objectLit props =>
      have h1 := propListWith_warn (fun n s' => extractValueFuel gen f n ctx fp s')
        (fun n s' => ih n ctx fp s') props s
      simp only [extractValueFuel]
      split <;> exact h1
    | jsxContainer e => exact ih e ctx fp s
    | funcExpr body =>
      cases body with
      | block stmts =>
        have h1 := stmtListWith_warn (fun n s' => extractValueFuel gen f n ctx fp s')
          (fun n s' => ih n ctx fp s') stmts s
        simp only [extractValueFuel]
        split <;> exact h1
      | _ =>
        first
        | (simp only [extractValueFuel]
           split <;> exact ih _ ctx fp s)
    | _ => exact Nat.le.refl

theorem flatten_single (n : Node) (h : ∀ l r, n ≠ .binary "+" l r) :
    flattenBinaryExpressionParts n = [n] := by
  unfold flattenBinaryExpressionParts
  split
  · next l r => exact absurd rfl (h l r)
  · rfl

theorem flattenClean_single (n : Node) (h : partIsLiteral n = none)
    (h2 : ∀ l r, n ≠ .binary "+" l r) : flattenClean n := by
  unfold flattenClean
  rw [flatten_single n h2]
  simp [hasChineseParts, h]

theorem flatten_plus (l r : Node) :
    flattenBinaryExpressionParts (.binary "+" l r) =
      flattenBinaryExpressionParts l ++ flattenBinaryExpressionParts r := by
  rfl

theorem hasChineseParts_append (a b : List Node) :
    hasChineseParts (a ++ b) = (hasChineseParts a || hasChineseParts b) := by
  unfold hasChineseParts
  exact List.any_append

theorem flattenClean_plus (l r : Node) (hl : flattenClean l) (hr : flattenClean r) :
    flattenClean (.binary "+" l r) := by
  unfold flattenClean
  rw [flatten_plus, hasChineseParts_append]
  unfold flattenClean at hl hr
  rw [hl, hr]
  rfl

theorem exprList_length
    (f : Node → ExtractState → Option ExtractResult × ExtractState) :
    ∀ (l : List Node) (s : ExtractState),
      (extractExprListWith f l s).1.length = l.length := by
  intro l
  induction l with
  | nil => intro s; rfl
  | cons n ns ih =>
    intro s
    simp only [extractExprListWith]
    cases (f n s).1 <;> simp [ih]

theorem containsChinese_parseAux_nil :
    ∀ (qs : List String) (i : Nat),
      containsChinese (parseTemplateAux qs [] i).1 = qs.any containsChinese := by
  intro qs
  induction qs with
  | nil =>
    intro i
    simp [parseTemplateAux, containsChinese]
  | cons q qs ih =>
    intro i
    simp only [parseTemplateAux, containsChinese_append, ih, List.any_cons]

theorem containsChinese_foldl (l : List String) :
    ∀ a, containsChinese (l.foldl (fun x y => x ++ y) a) =
      (containsChinese a || l.any containsChinese) := by
  induction l with
  | nil => intro a; simp
  | cons x xs ih =>
    intro a
    simp only [List.foldl_cons, ih, containsChinese_append, List.any_cons, Bool.or_assoc]

theorem containsChinese_join (l : List String) :
    containsChinese (String.join l) = l.any containsChinese := by
  have h : String.join l = l.foldl (fun x y => x ++ y) "" := rfl
  rw [h, containsChinese_foldl]
  simp [containsChinese]

theorem buildQuasisExprs_chinese :
    ∀ (parts : List Node) (buffer : String),
      (containsChinese buffer || hasChineseParts parts) = true →
      ∃ q ∈ (buildQuasisExprs parts buffer).1, containsChinese q = true := by
  intro parts
  induction parts with
  | nil =>
    intro buffer h
    refine ⟨buffer, List.mem_singleton.mpr rfl, ?_⟩
    simpa [hasChineseParts] using h
  | cons p ps ih =>
    intro buffer h
    simp only [buildQuasisExprs]
    cases hp : partIsLiteral p with
    | some v =>
      apply ih
      rw [containsChinese_append]
      simp only [hasChineseParts, List.any_cons, hp] at h
      rcases Bool.or_eq_true_iff.mp h with h1 | h2
      · simp [h1]
      rcases Bool.or_eq_true_iff.mp h2 with h3 | h4
      · simp [h3]
      · simp [hasChineseParts, h4]
    | none =>
      simp only [hasChineseParts, List.any_cons, hp] at h
      rcases Bool.or_eq_true_iff.mp h with h1 | h2
      · exact ⟨buffer, List.mem_cons_self _ _, h1⟩
      rcases Bool.or_eq_true_iff.mp h2 with h3 | h4
      · exact absurd h3 (by simp)
      · obtain ⟨q, hq, hcq⟩ := ih "" (by
          have h5 : hasChineseParts ps = true := h4
          rw [h5]
          simp)
        exact ⟨q, List.mem_cons_of_mem _ hq, hcq⟩

theorem parseAux_chinese :
    ∀ (qs : List String) (es : List Node) (i : Nat),
      (∃ q ∈ qs, containsChinese q = true) →
      containsChinese (parseTemplateAux qs es i).1 = true := by
  intro qs
  induction qs with
  | nil => intro es i h; obtain ⟨q, hq, _⟩ := h; exact absurd hq (List.not_mem_nil q)
  | cons q qs ih =>
    intro es i h
    obtain ⟨q0, hq0, hc⟩ := h
    cases es with
    | nil =>
      simp only [parseTemplateAux, containsChinese_append]
      rcases List.mem_cons.mp hq0 with h1 | h2
      · subst h1; simp [hc]
      · rw [ih [] (i + 1) ⟨q0, h2, hc⟩]; simp
    | cons e es =>
      simp only [parseTemplateAux, containsChinese_append]
      rcases List.mem_cons.mp hq0 with h1 | h2
      · subst h1; simp [hc]
      · rw [ih es (i + 1) ⟨q0, h2, hc⟩]; simp

theorem build_some_chinese_quasi (node tpl : Node)
    (h : buildTemplateLiteralFromBinaryExpression node = some tpl) :
    ∃ (quasis : List String) (exprs : List Node),
      tpl = .templateLit quasis exprs ∧ ∃ q ∈ quasis, containsChinese q = true := by
  unfold buildTemplateLiteralFromBinaryExpression at h
  split at h
  · next l r =>
    dsimp only at h
    split at h
    · exact absurd h (by simp)
    · split at h
      · next hcond =>
        simp only [Option.some.injEq] at h
        subst h
        refine ⟨_, _, rfl, ?_⟩
        apply buildQuasisExprs_chinese
        have h2 := (Bool.and_eq_true_iff.mp hcond).2
        simp [h2]
      · exact absurd h (by simp)
  · exact absurd h (by simp)

theorem template_chinese_some (gen : String → String → String)
    (quasis : List String) (exprs : List Node)
    (hq : ∃ q ∈ quasis, containsChinese q = true) :
    ∀ (f : Nat) (ctx fp : String) (s : ExtractState),
      (extractValueFuel gen (f + 1) (.templateLit quasis exprs) ctx fp s).1.isSome = true := by
  intro f ctx fp s
  have hch : containsChinese
      (parseTemplateLiteral quasis
        (extractExprListWith (fun n s' => extractValueFuel gen f n ctx fp s') exprs s).1).1
      = true := parseAux_chinese _ _ _ hq
  simp only [extractValueFuel]
  split
  · simp
  · split <;> simp

theorem exprList_noExtract
    (f : Node → ExtractState → Option ExtractResult × ExtractState) :
    ∀ (l : List Node), (∀ x ∈ l, ∀ s, (f x s).1 = none) →
      ∀ s, (extractExprListWith f l s).1 = l ∧
        (extractExprListWith f l s).2.1 = false := by
  intro l
  induction l with
  | nil => intro _ s; exact ⟨rfl, rfl⟩
  | cons n ns ih =>
    intro h s
    have hn := h n (List.mem_cons_self n ns) s
    have hrest := ih (fun x hx s' => h x (List.mem_cons_of_mem n hx) s') (f n s).2
    simp only [extractExprListWith, hn]
    exact ⟨by rw [hrest.1], hrest.2⟩

theorem elemList_noExtract
    (f : Node → ExtractState → Option ExtractResult × ExtractState) :
    ∀ (l : List (Option Node)),
      (∀ x ∈ l, ∀ n, x = some n → ∀ s, (f n s).1 = none) →
      ∀ s, (extractElemListWith f l s).1 = l ∧
        (extractElemListWith f l s).2.1 = false := by
  intro l
  induction l with
  | nil => intro _ s; exact ⟨rfl, rfl⟩
  | cons x ns ih =>
    intro h s
    cases x with
    | none =>
      have hrest := ih (fun x hx => h x (List.mem_cons_of_mem _ hx)) s
      simp only [extractElemListWith]
      exact ⟨by rw [hrest.1], hrest.2⟩
    | some n =>
      have hn := h (some n) (List.mem_cons_self _ _) n rfl s
      have hrest := ih (fun x hx => h x (List.mem_cons_of_mem _ hx)) (f n s).2
      simp only [extractElemListWith, hn]
      exact ⟨by rw [hrest.1], hrest.2⟩

theorem propList_noExtract
    (f : Node → ExtractState → Option ExtractResult × ExtractState) :
    ∀ (l : List Node),
      (∀ p ∈ l, ∀ k v comp sh, p = .objectProperty k v comp sh →
        ∀ s, (f v s).1 = none) →
      ∀ s, (extractPropListWith f l s).1 = l ∧
        (extractPropListWith f l s).2.1 = false := by
  intro l
  induction l with
  | nil => intro _ s; exact ⟨rfl, rfl⟩
  | cons p ps ih =>
    intro h s
    have hrest0 := ih (fun x hx => h x (List.mem_cons_of_mem _ hx))
    cases p with
    | objectProperty k v comp sh =>
      have hv := h _ (List.mem_cons_self _ _) k v comp sh rfl s
      have hrest := hrest0 (f v s).2
      simp only [extractPropListWith, hv]
      exact ⟨by rw [hrest.1], hrest.2⟩
    | stringLit q =>
      have hrest := hrest0 s
      exact ⟨by simp only [extractPropListWith]; rw [hrest.1], hrest.2⟩
    | templateLit a b =>
      have hrest := hrest0 s
      exact ⟨by simp only [extractPropListWith]; rw [hrest.1], hrest.2⟩
    | conditional a b c =>
      have hrest := hrest0 s
      exact ⟨by simp only [extractPropListWith]; rw [hrest.1], hrest.2⟩
    | logical a b c =>
      have hrest := hrest0 s
      exact ⟨by simp only [extractPropListWith]; rw [hrest.1], hrest.2⟩
    | arrayLit a =>
      have hrest := hrest0 s
      exact ⟨by simp only [extractPropListWith]; rw [hrest.1], hrest.2⟩
    | binary a b c =>
      have hrest := hrest0 s
      exact ⟨by simp only [extractPropListWith]; rw [hrest.1], hrest.2⟩
    | call a b =>
      have hrest := hrest0 s
      exact ⟨by simp only [extractPropListWith]; rw [hrest.1], hrest.2⟩
    | member a b c =>
      have hrest := hrest0 s
      exact ⟨by simp only [extractPropListWith]; rw [hrest.1], hrest.2⟩
    | ident a =>
      have hrest := hrest0 s
      exact ⟨by simp only [extractPropListWith]; rw [hrest.1], hrest.2⟩
    | numLit a =>
      have hrest := hrest0 s
      exact ⟨by simp only [extractPropListWith]; rw [hrest.1], hrest.2⟩
    | objectMethod a b c d =>
      have hrest := hrest0 s
      exact ⟨by simp only [extractPropListWith]; rw [hrest.1], hrest.2⟩
    | objectLit a =>
      have hrest := hrest0 s
      exact ⟨by simp only [extractPropListWith]; rw [hrest.1], hrest.2⟩
    | jsxContainer a =>
      have hrest := hrest0 s
      exact ⟨by simp only [extractPropListWith]; rw [hrest.1], hrest.2⟩
    | jsxEmpty =>
      have hrest := hrest0 s
      exact ⟨by simp only [extractPropListWith]; rw [hrest.1], hrest.2⟩
    | jsxText a =>
      have hrest := hrest0 s
      exact ⟨by simp only [extractPropListWith]; rw [hrest.1], hrest.2⟩
    | funcExpr a =>
      have hrest := hrest0 s
      exact ⟨by simp only [extractPropListWith]; rw [hrest.1], hrest.2⟩
    | block a =>
      have hrest := hrest0 s
      exact ⟨by simp only [extractPropListWith]; rw [hrest.1], hrest.2⟩
    | returnStmt a =>
      have hrest := hrest0 s
      exact ⟨by simp only [extractPropListWith]; rw [hrest.1], hrest.2⟩
    | newExpr a b =>
      have hrest := hrest0 s
      exact ⟨by simp only [extractPropListWith]; rw [hrest.1], hrest.2⟩
    | tsAs a =>
      have hrest := hrest0 s
      exact ⟨by simp only [extractPropListWith]; rw [hrest.1], hrest.2⟩
    | other =>
      have hrest := hrest0 s
      exact ⟨by simp only [extractPropListWith]; rw [hrest.1], hrest.2⟩

theorem stmtList_noExtract
    (f : Node → ExtractState → Option ExtractResult × ExtractState) :
    ∀ (l : List Node),
      (∀ st ∈ l, ∀ a, st = .returnStmt (some a) → ∀ s, (f a s).1 = none) →
      ∀ s, (extractStmtListWith f l s).1 = l ∧
        (extractStmtListWith f l s).2.1 = false := by
  intro l
  induction l with
  | nil => intro _ s; exact ⟨rfl, rfl⟩
  | cons st sts ih =>
    intro h s
    have hrest0 := ih (fun x hx => h x (List.mem_cons_of_mem _ hx))
    cases st with
    | returnStmt a =>
      cases a with
      | some arg =>
        have ha := h _ (List.mem_cons_self _ _) arg rfl s
        have hrest := hrest0 (f arg s).2
        simp only [extractStmtListWith, ha]
        exact ⟨by rw [hrest.1], hrest.2⟩
      | none =>
        have hrest := hrest0 s
        exact ⟨by simp only [extractStmtListWith]; rw [hrest.1], hrest.2⟩
    | stringLit q =>
      have hrest := hrest0 s
      exact ⟨by simp only [extractStmtListWith]; rw [hrest.1], hrest.2⟩
    | templateLit a b =>
      have hrest := hrest0 s
      exact ⟨by simp only [extractStmtListWith]; rw [hrest.1], hrest.2⟩
    | conditional a b c =>
      have hrest := hrest0 s
      exact ⟨by simp only [extractStmtListWith]; rw [hrest.1], hrest.2⟩
    | logical a b c =>
      have hrest := hrest0 s
      exact ⟨by simp only [extractStmtListWith]; rw [hrest.1], hrest.2⟩
    | arrayLit a =>
      have hrest := hrest0 s
      exact ⟨by simp only [extractStmtListWith]; rw [hrest.1], hrest.2⟩
    | binary a b c =>
      have hrest := hrest0 s
      exact ⟨by simp only [extractStmtListWith]; rw [hrest.1], hrest.2⟩
    | call a b =>
      have hrest := hrest0 s
      exact ⟨by simp only [extractStmtListWith]; rw [hrest.1], hrest.2⟩
    | member a b c =>
      have hrest := hrest0 s
      exact ⟨by simp only [extractStmtListWith]; rw [hrest.1], hrest.2⟩
    | ident a =>
      have hrest := hrest0 s
      exact ⟨by simp only [extractStmtListWith]; rw [hrest.1], hrest.2⟩
    | numLit a =>
      have hrest := hrest0 s
      exact ⟨by simp only [extractStmtListWith]; rw [hrest.1], hrest.2⟩
    | objectProperty a b c d =>
      have hrest := hrest0 s
      exact ⟨by simp only [extractStmtListWith]; rw [hrest.1], hrest.2⟩
    | objectMethod a b c d =>
      have hrest := hrest0 s
      exact ⟨by simp only [extractStmtListWith]; rw [hrest.1], hrest.2⟩
    | objectLit a =>
      have hrest := hrest0 s
      exact ⟨by simp only [extractStmtListWith]; rw [hrest.1], hrest.2⟩
    | jsxContainer a =>
      have hrest := hrest0 s
      exact ⟨by simp only [extractStmtListWith]; rw [hrest.1], hrest.2⟩
    | jsxEmpty =>
      have hrest := hrest0 s
      exact ⟨by simp only [extractStmtListWith]; rw [hrest.1], hrest.2⟩
    | jsxText a =>
      have hrest := hrest0 s
      exact ⟨by simp only [extractStmtListWith]; rw [hrest.1], hrest.2⟩
    | funcExpr a =>
      have hrest := hrest0 s
      exact ⟨by simp only [extractStmtListWith]; rw [hrest.1], hrest.2⟩
    | block a =>
      have hrest := hrest0 s
      exact ⟨by simp only [extractStmtListWith]; rw [hrest.1], hrest.2⟩
    | newExpr a b =>
      have hrest := hrest0 s
      exact ⟨by simp only [extractStmtListWith]; rw [hrest.1], hrest.2⟩
    | tsAs a =>
      have hrest := hrest0 s
      exact ⟨by simp only [extractStmtListWith]; rw [hrest.1], hrest.2⟩
    | other =>
      have hrest := hrest0 s
      exact ⟨by simp only [extractStmtListWith]; rw [hrest.1], hrest.2⟩

theorem exprList_main (gen : String → String → String)
    (f : Node → ExtractState → Option ExtractResult × ExtractState)
    (hmono : ∀ n s, s.warnings ≤ (f n s).2.warnings)
    (hmain : ∀ n s, (f n s).2.warnings = s.warnings →
      (((f n s).1 = none → noExtract gen n) ∧
       (∀ r, (f n s).1 = some r → noExtract gen r.replacement))) :
    ∀ (l : List Node) (s : ExtractState),
      (extractExprListWith f l s).2.2.warnings = s.warnings →
      ((∀ x ∈ (extractExprListWith f l s).1, noExtract gen x) ∧
       ((extractExprListWith f l s).2.1 = false →
         (extractExprListWith f l s).1 = l ∧ ∀ x ∈ l, noExtract gen x)) := by
  intro l
  induction l with
  | nil =>
    intro s _
    exact ⟨fun x hx => absurd hx (List.not_mem_nil x),
      fun _ => ⟨rfl, fun x hx => absurd hx (List.not_mem_nil x)⟩⟩
  | cons n ns ih =>
    intro s hw
    have m1 := hmono n s
    have m2 := exprListWith_warn f hmono ns (f n s).2
    cases hr : (f n s).1 with
    | some res =>
      simp only [extractExprListWith, hr] at hw ⊢
      have hwn : (f n s).2.warnings = s.warnings := by omega
      have hwrest : (extractExprListWith f ns (f n s).2).2.2.warnings
          = (f n s).2.warnings := by omega
      have hm := hmain n s hwn
      have hih := ih (f n s).2 hwrest
      refine ⟨?_, ?_⟩
      · intro x hx
        rcases List.mem_cons.mp hx with h1 | h2
        · subst h1; exact hm.2 res hr
        · exact hih.1 x h2
      · intro hfl; exact absurd hfl (by simp)
    | none =>
      simp only [extractExprListWith, hr] at hw ⊢
      have hwn : (f n s).2.warnings = s.warnings := by omega
      have hwrest : (extractExprListWith f ns (f n s).2).2.2.warnings
          = (f n s).2.warnings := by omega
      have hm := hmain n s hwn
      have hih := ih (f n s).2 hwrest
      refine ⟨?_, ?_⟩
      · intro x hx
        rcases List.mem_cons.mp hx with h1 | h2
        · subst h1; exact hm.1 hr
        · exact hih.1 x h2
      · intro hfl
        obtain ⟨hout, hall⟩ := hih.2 hfl
        refine ⟨by rw [hout], ?_⟩
        intro x hx
        rcases List.mem_cons.mp hx with h1 | h2
        · subst h1; exact hm.1 hr
        · exact hall x h2

theorem elemList_main (gen : String → String → String)
    (f : Node → ExtractState → Option ExtractResult × ExtractState)
    (hmono : ∀ n s, s.warnings ≤ (f n s).2.warnings)
    (hmain : ∀ n s, (f n s).2.warnings = s.warnings →
      (((f n s).1 = none → noExtract gen n) ∧
       (∀ r, (f n s).1 = some r → noExtract gen r.replacement))) :
    ∀ (l : List (Option Node)) (s : ExtractState),
      (extractElemListWith f l s).2.2.warnings = s.warnings →
      ((∀ x ∈ (extractElemListWith f l s).1, ∀ m, x = some m → noExtract gen m) ∧
       ((extractElemListWith f l s).2.1 = false →
         (extractElemListWith f l s).1 = l ∧
           ∀ x ∈ l, ∀ m, x = some m → noExtract gen m)) := by
  intro l
  induction l with
  | nil =>
    intro s _
    exact ⟨fun x hx => absurd hx (List.not_mem_nil x),
      fun _ => ⟨rfl, fun x hx => absurd hx (List.not_mem_nil x)⟩⟩
  | cons x ns ih =>
    intro s hw
    cases x with
    | none =>
      simp only [extractElemListWith] at hw ⊢
      have hih := ih s hw
      refine ⟨?_, ?_⟩
      · intro y hy
        rcases List.mem_cons.mp hy with h1 | h2
        · subst h1; intro m hm; exact absurd hm (by simp)
        · exact hih.1 y h2
      · intro hfl
        obtain ⟨hout, hall⟩ := hih.2 hfl
        refine ⟨by rw [hout], ?_⟩
        intro y hy
        rcases List.mem_cons.mp hy with h1 | h2
        · subst h1; intro m hm; exact absurd hm (by simp)
        · exact hall y h2
    | some n =>
      have m1 := hmono n s
      have m2 := elemListWith_warn f hmono ns (f n s).2
      cases hr : (f n s).1 with
      | some res =>
        simp only [extractElemListWith, hr] at hw ⊢
        have hwn : (f n s).2.warnings = s.warnings := by omega
        have hwrest : (extractElemListWith f ns (f n s).2).2.2.warnings
            = (f n s).2.warnings := by omega
        have hm := hmain n s hwn
        have hih := ih (f n s).2 hwrest
        refine ⟨?_, ?_⟩
        · intro y hy
          rcases List.mem_cons.mp hy with h1 | h2
          · subst h1
            intro m hm2
            cases hm2
            exact hm.2 res hr
          · exact hih.1 y h2
        · intro hfl; exact absurd hfl (by simp)
      | none =>
        simp only [extractElemListWith, hr] at hw ⊢
        have hwn : (f n s).2.warnings = s.warnings := by omega
        have hwrest : (extractElemListWith f ns (f n s).2).2.2.warnings
            = (f n s).2.warnings := by omega
        have hm := hmain n s hwn
        have hih := ih (f n s).2 hwrest
        refine ⟨?_, ?_⟩
        · intro y hy
          rcases List.mem_cons.mp hy with h1 | h2
          · subst h1
            intro m hm2
            cases hm2
            exact hm.1 hr
          · exact hih.1 y h2
        · intro hfl
          obtain ⟨hout, hall⟩ := hih.2 hfl
          refine ⟨by rw [hout], ?_⟩
          intro y hy
          rcases List.mem_cons.mp hy with h1 | h2
          · subst h1
            intro m hm2
            cases hm2
            exact hm.1 hr
          · exact hall y h2

theorem propList_main (gen : String → String → String)
    (f : Node → ExtractState → Option ExtractResult × ExtractState)
    (hmono : ∀ n s, s.warnings ≤ (f n s).2.warnings)
    (hmain : ∀ n s, (f n s).2.warnings = s.warnings →
      (((f n s).1 = none → noExtract gen n) ∧
       (∀ r, (f n s).1 = some r → noExtract gen r.replacement))) :
    ∀ (l : List Node) (s : ExtractState),
      (extractPropListWith f l s).2.2.warnings = s.warnings →
      ((∀ p ∈ (extractPropListWith f l s).1, ∀ k v comp sh,
          p = .objectProperty k v comp sh → noExtract gen v) ∧
       ((extractPropListWith f l s).2.1 = false →
         ∀ p ∈ l, ∀ k v comp sh,
           p = .objectProperty k v comp sh → noExtract gen v)) := by
  intro l
  induction l with
  | nil =>
    intro s _
    exact ⟨fun x hx => absurd hx (List.not_mem_nil x),
      fun _ x hx => absurd hx (List.not_mem_nil x)⟩
  | cons p ps ih =>
    intro s hw
    cases p with
    | objectProperty k0 v0 comp0 sh0 =>
      have m1 := hmono v0 s
      have m2 := propListWith_warn f hmono ps (f v0 s).2
      cases hr : (f v0 s).1 with
      | some res =>
        simp only [extractPropListWith, hr] at hw ⊢
        have hwn : (f v0 s).2.warnings = s.warnings := by omega
        have hwrest : (extractPropListWith f ps (f v0 s).2).2.2.warnings
            = (f v0 s).2.warnings := by omega
        have hm := hmain v0 s hwn
        have hih := ih (f v0 s).2 hwrest
        refine ⟨?_, ?_⟩
        · intro q hq
          rcases List.mem_cons.mp hq with h1 | h2
          · subst h1
            intro k v comp sh heq
            split at heq
            · exact absurd heq (by simp)
            · simp only [Node.objectProperty.injEq] at heq
              obtain ⟨_, hv, _, _⟩ := heq
              subst hv
              exact hm.2 res hr
          · exact hih.1 q h2
        · intro hfl; exact absurd hfl (by simp)
      | none =>
        simp only [extractPropListWith, hr] at hw ⊢
        have hwn : (f v0 s).2.warnings = s.warnings := by omega
        have hwrest : (extractPropListWith f ps (f v0 s).2).2.2.warnings
            = (f v0 s).2.warnings := by omega
        have hm := hmain v0 s hwn
        have hih := ih (f v0 s).2 hwrest
        refine ⟨?_, ?_⟩
        · intro q hq
          rcases List.mem_cons.mp hq with h1 | h2
          · subst h1
            intro k v comp sh heq
            simp only [Node.objectProperty.injEq] at heq
            obtain ⟨_, hv, _, _⟩ := heq
            subst hv
            exact hm.1 hr
          · exact hih.1 q h2
        · intro hfl
          have hall := hih.2 hfl
          intro q hq
          rcases List.mem_cons.mp hq with h1 | h2
          · subst h1
            intro k v comp sh heq
            simp only [Node.objectProperty.injEq] at heq
            obtain ⟨_, hv, _, _⟩ := heq
            subst hv
            exact hm.1 hr
          · exact hall q h2
    | _ =>
      simp only [extractPropListWith] at hw ⊢
      have hih := ih s hw
      refine ⟨?_, ?_⟩
      · intro q hq
        rcases List.mem_cons.mp hq with h1 | h2
        · subst h1
          intro k v comp sh heq
          exact Node.noConfusion heq
        · exact hih.1 q h2
      · intro hfl
        have hall := hih.2 hfl
        intro q hq
        rcases List.mem_cons.mp hq with h1 | h2
        · subst h1
          intro k v comp sh heq
          exact Node.noConfusion heq
        · exact hall q h2

theorem stmtList_main (gen : String → String → String)
    (f : Node → ExtractState → Option ExtractResult × ExtractState)
    (hmono : ∀ n s, s.warnings ≤ (f n s).2.warnings)
    (hmain : ∀ n s, (f n s).2.warnings = s.warnings →
      (((f n s).1 = none → noExtract gen n) ∧
       (∀ r, (f n s).1 = some r → noExtract gen r.replacement))) :
    ∀ (l : List Node) (s : ExtractState),
      (extractStmtListWith f l s).2.2.warnings = s.warnings →
      ((∀ st ∈ (extractStmtListWith f l s).1, ∀ a,
          st = .returnStmt (some a) → noExtract gen a) ∧
       ((extractStmtListWith f l s).2.1 = false →
         ∀ st ∈ l, ∀ a, st = .returnStmt (some a) → noExtract gen a)) := by
  intro l
  induction l with
  | nil =>
    intro s _
    exact ⟨fun x hx => absurd hx (List.not_mem_nil x),
      fun _ x hx => absurd hx (List.not_mem_nil x)⟩
  | cons st sts ih =>
    intro s hw
    cases st with
    | returnStmt a0 =>
      cases a0 with
      | some arg =>
        have m1 := hmono arg s
        have m2 := stmtListWith_warn f hmono sts (f arg s).2
        cases hr : (f arg s).1 with
        | some res =>
          simp only [extractStmtListWith, hr] at hw ⊢
          have hwn : (f arg s).2.warnings = s.warnings := by omega
          have hwrest : (extractStmtListWith f sts (f arg s).2).2.2.warnings
              = (f arg s).2.warnings := by omega
          have hm := hmain arg s hwn
          have hih := ih (f arg s).2 hwrest
          refine ⟨?_, ?_⟩
          · intro q hq
            rcases List.mem_cons.mp hq with h1 | h2
            · subst h1
              intro a heq
              simp only [Node.returnStmt.injEq, Option.some.injEq] at heq
              subst heq
              exact hm.2 res hr
            · exact hih.1 q h2
          · intro hfl; exact absurd hfl (by simp)
        | none =>
          simp only [extractStmtListWith, hr] at hw ⊢
          have hwn : (f arg s).2.warnings = s.warnings := by omega
          have hwrest : (extractStmtListWith f sts (f arg s).2).2.2.warnings
              = (f arg s).2.warnings := by omega
          have hm := hmain arg s hwn
          have hih := ih (f arg s).2 hwrest
          refine ⟨?_, ?_⟩
          · intro q hq
            rcases List.mem_cons.mp hq with h1 | h2
            · subst h1
              intro a heq
              simp only [Node.returnStmt.injEq, Option.some.injEq] at heq
              subst heq
              exact hm.1 hr
            · exact hih.1 q h2
          · intro hfl
            have hall := hih.2 hfl
            intro q hq
            rcases List.mem_cons.mp hq with h1 | h2
            · subst h1
              intro a heq
              simp only [Node.returnStmt.injEq, Option.some.injEq] at heq
              subst heq
              exact hm.1 hr
            · exact hall q h2
      | none =>
        simp only [extractStmtListWith] at hw ⊢
        have hih := ih s hw
        refine ⟨?_, ?_⟩
        · intro q hq
          rcases List.mem_cons.mp hq with h1 | h2
          · subst h1
            intro a heq
            simp only [Node.returnStmt.injEq] at heq
            exact Option.noConfusion heq
          · exact hih.1 q h2
        · intro hfl
          have hall := hih.2 hfl
          intro q hq
          rcases List.mem_cons.mp hq with h1 | h2
          · subst h1
            intro a heq
            simp only [Node.returnStmt.injEq] at heq
            exact Option.noConfusion heq
          · exact hall q h2
    | _ =>
      simp only [extractStmtListWith] at hw ⊢
      have hih := ih s hw
      refine ⟨?_, ?_⟩
      · intro q hq
        rcases List.mem_cons.mp hq with h1 | h2
        · subst h1
          intro a heq
          exact Node.noConfusion heq
        · exact hih.1 q h2
      · intro hfl
        have hall := hih.2 hfl
        intro q hq
        rcases List.mem_cons.mp hq with h1 | h2
        · subst h1
          intro a heq
          exact Node.noConfusion heq
        · exact hall q h2

theorem replacement_not_block (gen : String → String → String) :
    ∀ (f : Nat) (n : Node) (ctx fp : String) (s : ExtractState) (r : ExtractResult),
      (extractValueFuel gen f n ctx fp s).1 = some r →
      ∀ stmts, r.replacement ≠ .block stmts := by
  intro f
  induction f with
  | zero =>
    intro n ctx fp s r h
    simp [extractValueFuel] at h
  | succ f ih =>
    intro n ctx fp s r h stmts
    cases n with
    | stringLit v =>
      simp only [extractValueFuel] at h
      split at h
      · exact absurd h (by simp)
      · split at h <;>
          (simp only [Option.some.injEq] at h; subst h;
           simp [createIntlGetCallExpression])
    | templateLit qs es =>
      simp only [extractValueFuel] at h
      split at h
      · simp only [Option.some.injEq] at h; subst h; simp
      · split at h
        · split at h <;>
            (simp only [Option.some.injEq] at h; subst h;
             simp [createIntlGetCallExpression])
        · split at h
          · simp only [Option.some.injEq] at h; subst h; simp
          · exact absurd h (by simp)
    | conditional t c a =>
      simp only [extractValueFuel] at h
      split at h
      · simp only [Option.some.injEq] at h; subst h; simp
      · exact absurd h (by simp)
    | logical op l rn =>
      simp only [extractValueFuel] at h
      split at h
      · simp only [Option.some.injEq] at h; subst h; simp
      · exact absurd h (by simp)
    | arrayLit elems =>
      simp only [extractValueFuel] at h
      split at h
      · simp only [Option.some.injEq] at h; subst h; simp
      · exact absurd h (by simp)
    | binary op l rn =>
      simp only [extractValueFuel] at h
      split at h
      · split at h
        · next res hres =>
          simp only [Option.some.injEq] at h
          subst h
          cases hconv : buildTemplateLiteralFromBinaryExpression (.binary op l rn) with
          | some tpl =>
            rw [hconv] at hres
            exact ih tpl ctx fp s res hres stmts
          | none =>
            rw [hconv] at hres
            exact absurd hres (by simp)
        · split at h
          · simp only [Option.some.injEq] at h; subst h; simp
          · exact absurd h (by simp)
      · exact absurd h (by simp)
    | call callee args =>
      simp only [extractValueFuel] at h
      split at h
      · exact absurd h (by simp)
      · split at h
        · simp only [Option.some.injEq] at h; subst h; simp
        · exact absurd h (by simp)
    | objectLit props =>
      simp only [extractValueFuel] at h
      split at h
      · simp only [Option.some.injEq] at h; subst h; simp
      · exact absurd h (by simp)
    | jsxContainer e =>
      simp only [extractValueFuel] at h
      exact ih e ctx fp s r h stmts
    | funcExpr body =>
      simp only [extractValueFuel] at h
      split at h
      · split at h
        · simp only [Option.some.injEq] at h; subst h; simp
        · exact absurd h (by simp)
      · split at h
        · simp only [Option.some.injEq] at h; subst h; simp
        · exact absurd h (by simp)
    | _ =>
      simp only [extractValueFuel] at h
      exact absurd h (by simp)

theorem noExtract_intl_call (gen : String → String → String) (k : String)
    (vars : List TplVar) : noExtract gen (createIntlGetCallExpression k vars) := by
  intro f ctx fp s
  cases f with
  | zero => rfl
  | succ f => rfl

theorem flattenClean_intl_call (k : String) (vars : List TplVar) :
    flattenClean (createIntlGetCallExpression k vars) :=
  flattenClean_single _ rfl (fun a b h => Node.noConfusion h)

theorem containsChinese_parse_nil (qs : List String) :
    containsChinese (parseTemplateLiteral qs []).1 = qs.any containsChinese :=
  containsChinese_parseAux_nil qs 0

theorem call_step (gen : String → String → String) (f : Nat) (callee : Node)
    (args : List Node) (ctx fp : String) (s : ExtractState)
    (hif : isIntlGetCall callee = false) :
    extractValueFuel gen (f + 1) (.call callee args) ctx fp s =
      (if (extractExprListWith
            (fun n s' => extractValueFuel gen f n ctx fp s') args s).2.1 = true
       then (some ⟨none, .call callee
              (extractExprListWith
                (fun n s' => extractValueFuel gen f n ctx fp s') args s).1⟩,
            (extractExprListWith
              (fun n s' => extractValueFuel gen f n ctx fp s') args s).2.2)
       else (none, (extractExprListWith
              (fun n s' => extractValueFuel gen f n ctx fp s') args s).2.2)) := by
  simp only [extractValueFuel, hif]
  rw [if_neg Bool.false_ne_true]

theorem build_none_of_clean (l r : Node)
    (hch : hasChineseParts (flattenBinaryExpressionParts (.binary "+" l r)) = false) :
    buildTemplateLiteralFromBinaryExpression (.binary "+" l r) = none := by
  unfold buildTemplateLiteralFromBinaryExpression
  split
  · next l2 r2 heq =>
    injection heq with hop hl2 hr2
    subst hl2
    subst hr2
    dsimp only
    split
    · rfl
    · rw [hch]
      simp
  · rfl

theorem extract_main (gen : String → String → String) :
    ∀ (f : Nat) (n : Node) (ctx fp : String) (s : ExtractState),
      (extractValueFuel gen f n ctx fp s).2.warnings = s.warnings →
      (((extractValueFuel gen f n ctx fp s).1 = none →
          noExtract gen n ∧ flattenClean n) ∧
       (∀ r, (extractValueFuel gen f n ctx fp s).1 = some r →
          noExtract gen r.replacement ∧ flattenClean r.replacement)) := by
  intro f
  induction f with
  | zero =>
    intro n ctx fp s hw
    exfalso
    simp only [extractValueFuel] at hw
    omega
  | succ f ih =>
    intro n ctx fp s hw
    have hmono : ∀ (m : Node) (s' : ExtractState),
        s'.warnings ≤ (extractValueFuel gen f m ctx fp s').2.warnings :=
      fun m s' => extractValueFuel_warn gen f m ctx fp s'
    have hmain : ∀ (m : Node) (s' : ExtractState),
        (extractValueFuel gen f m ctx fp s').2.warnings = s'.warnings →
        (((extractValueFuel gen f m ctx fp s').1 = none → noExtract gen m) ∧
         (∀ r, (extractValueFuel gen f m ctx fp s').1 = some r →
            noExtract gen r.replacement)) :=
      fun m s' hw' =>
        ⟨fun h => ((ih m ctx fp s' hw').1 h).1,
         fun r h => ((ih m ctx fp s' hw').2 r h).1⟩
    cases n with
    | stringLit v =>
      by_cases hcv : containsChinese v = true
      · refine ⟨?_, ?_⟩
        · intro hnone
          exfalso
          simp only [extractValueFuel, hcv, Bool.not_true] at hnone
          split at hnone
          · simp_all
          · split at hnone <;> simp at hnone
        · intro r hr
          simp only [extractValueFuel, hcv, Bool.not_true] at hr
          split at hr
          · simp at hr
          · have hrepl : ∃ k, r = ⟨some k, createIntlGetCallExpression k []⟩ := by
              split at hr <;>
                (simp only [Option.some.injEq] at hr; exact ⟨_, hr.symm⟩)
            obtain ⟨k, hk⟩ := hrepl
            subst hk
            exact ⟨noExtract_intl_call gen k [], flattenClean_intl_call k []⟩
      · have hcv2 : containsChinese v = false := Bool.eq_false_iff.mpr hcv
        refine ⟨?_, ?_⟩
        · intro _
          constructor
          · intro f'' ctx' fp' s''
            cases f'' with
            | zero => rfl
            | succ f'' =>
              simp only [extractValueFuel, hcv2, Bool.not_false]
              rfl
          · unfold flattenClean
            rw [flatten_single _ (fun a b h => Node.noConfusion h)]
            simp [hasChineseParts, partIsLiteral, hcv2]
        · intro r hr
          exfalso
          simp only [extractValueFuel, hcv2, Bool.not_false] at hr
          exact Option.noConfusion hr
    | templateLit quasis exprs =>
      simp only [extractValueFuel] at hw ⊢
      have hw1 : (extractExprListWith
          (fun m s' => extractValueFuel gen f m ctx fp s') exprs s).2.2.warnings
          = s.warnings := by
        split at hw
        · exact hw
        · split at hw
          · split at hw
            · exact hw
            · exact hw
          · split at hw
            · exact hw
            · exact hw
      have hL := exprList_main gen _ hmono hmain exprs s hw1
      have hlen := exprList_length
        (fun m s' => extractValueFuel gen f m ctx fp s') exprs s
      constructor
      · intro hnone
        split at hnone
        · exact absurd hnone (by simp)
        · next h1 =>
          split at hnone
          · split at hnone <;> simp at hnone
          · next h2 =>
            split at hnone
            · exact absurd hnone (by simp)
            · next h3 =>
              have hfl : (extractExprListWith
                  (fun m s' => extractValueFuel gen f m ctx fp s') exprs s).2.1
                  = false := Bool.eq_false_iff.mpr h3
              obtain ⟨hout, hall⟩ := hL.2 hfl
              have hch : containsChinese (parseTemplateLiteral quasis exprs).1
                  = false := by
                have := Bool.eq_false_iff.mpr h2
                rwa [hout] at this
              constructor
              · intro f'' ctx' fp' s''
                cases f'' with
                | zero => rfl
                | succ f'' =>
                  simp only [extractValueFuel]
                  have hre := exprList_noExtract
                    (fun m s' => extractValueFuel gen f'' m ctx' fp' s') exprs
                    (fun x hx s3 => hall x hx f'' ctx' fp' s3) s''
                  rw [hre.1, hre.2, hch]
                  simp
              · cases exprs with
                | nil =>
                  unfold flattenClean
                  rw [flatten_single _ (fun a b h => Node.noConfusion h)]
                  rw [containsChinese_parse_nil] at hch
                  simp [hasChineseParts, partIsLiteral, containsChinese_join, hch]
                | cons e es =>
                  exact flattenClean_single _ rfl (fun a b h => Node.noConfusion h)
      · intro r hr
        split at hr
        · next h1 =>
          simp only [Option.some.injEq] at hr
          subst hr
          have hch : containsChinese (parseTemplateLiteral quasis
              (extractExprListWith
                (fun m s' => extractValueFuel gen f m ctx fp s') exprs s).1).1
              = false := by
            have h1' := h1
            cases hcc : containsChinese (parseTemplateLiteral quasis
                (extractExprListWith
                  (fun m s' => extractValueFuel gen f m ctx fp s') exprs s).1).1
            · rfl
            · rw [hcc] at h1'; simp at h1'
          have hflag : (extractExprListWith
              (fun m s' => extractValueFuel gen f m ctx fp s') exprs s).2.1
              = true := by
            have h1' := h1
            cases hff : (extractExprListWith
                (fun m s' => extractValueFuel gen f m ctx fp s') exprs s).2.1
            · rw [hff] at h1'; simp at h1'
            · rfl
          constructor
          · intro f'' ctx' fp' s''
            cases f'' with
            | zero => rfl
            | succ f'' =>
              simp only [extractValueFuel]
              have hre := exprList_noExtract
                (fun m s' => extractValueFuel gen f'' m ctx' fp' s')
                (extractExprListWith
                  (fun m s' => extractValueFuel gen f m ctx fp s') exprs s).1
                (fun x hx s3 => hL.1 x hx f'' ctx' fp' s3) s''
              rw [hre.1, hre.2, hch]
              simp
          · cases hcons : (extractExprListWith
                (fun m s' => extractValueFuel gen f m ctx fp s') exprs s).1 with
            | nil =>
              exfalso
              cases hex : exprs with
              | nil =>
                rw [hex] at hflag
                simp [extractExprListWith] at hflag
              | cons e es =>
                rw [hcons, hex] at hlen
                simp at hlen
            | cons y ys =>
              exact flattenClean_single _ rfl (fun a b h => Node.noConfusion h)
        · next h1 =>
          split at hr
          · have hrepl : ∃ k vars, r = ⟨some k, createIntlGetCallExpression k vars⟩ := by
              split at hr <;>
                (simp only [Option.some.injEq] at hr; exact ⟨_, _, hr.symm⟩)
            obtain ⟨k, vars, hk⟩ := hrepl
            subst hk
            exact ⟨noExtract_intl_call gen k vars, flattenClean_intl_call k vars⟩
          · next h2 =>
            split at hr
            · next h3 =>
              exfalso
              have hcf : containsChinese (parseTemplateLiteral quasis
                  (extractExprListWith
                    (fun m s' => extractValueFuel gen f m ctx fp s') exprs s).1).1
                  = false := Bool.eq_false_iff.mpr h2
              rw [h3, hcf] at h1
              simp at h1
            · exact absurd hr (by simp)
    | conditional t c a =>
      simp only [extractValueFuel] at hw ⊢
      have m1 := hmono c s
      have m2 := hmono a (extractValueFuel gen f c ctx fp s).2
      have hw2 : (extractValueFuel gen f a ctx fp
          (extractValueFuel gen f c ctx fp s).2).2.warnings = s.warnings := by
        split at hw
        · exact hw
        · exact hw
      have hwc : (extractValueFuel gen f c ctx fp s).2.warnings = s.warnings := by
        omega
      have hwa : (extractValueFuel gen f a ctx fp
          (extractValueFuel gen f c ctx fp s).2).2.warnings
          = (extractValueFuel gen f c ctx fp s).2.warnings := by omega
      have hbc := ih c ctx fp s hwc
      have hba := ih a ctx fp (extractValueFuel gen f c ctx fp s).2 hwa
      constructor
      · intro hnone
        split at hnone
        · exact absurd hnone (by simp)
        · next hcond =>
          have hcn : (extractValueFuel gen f c ctx fp s).1 = none := by
            cases hx : (extractValueFuel gen f c ctx fp s).1 with
            | none => rfl
            | some x => rw [hx] at hcond; simp at hcond
          have han : (extractValueFuel gen f a ctx fp
              (extractValueFuel gen f c ctx fp s).2).1 = none := by
            cases hx : (extractValueFuel gen f a ctx fp
                (extractValueFuel gen f c ctx fp s).2).1 with
            | none => rfl
            | some x => rw [hx] at hcond; simp at hcond
          obtain ⟨hnc, _⟩ := hbc.1 hcn
          obtain ⟨hna, _⟩ := hba.1 han
          refine ⟨?_, flattenClean_single _ rfl (fun x y h => Node.noConfusion h)⟩
          intro f'' ctx' fp' s''
          cases f'' with
          | zero => rfl
          | succ f'' =>
            simp only [extractValueFuel]
            rw [hnc f'' ctx' fp' s'', hna f'' ctx' fp' _]
            simp
      · intro r hr
        split at hr
        · next hcond =>
          simp only [Option.some.injEq] at hr
          subst hr
          have hl' : noExtract gen (match (extractValueFuel gen f c ctx fp s).1 with
              | some x => x.replacement | none => c) := by
            cases hx : (extractValueFuel gen f c ctx fp s).1 with
            | some x =>
              simp only [hx]
              exact ((hbc.2 x hx)).1
            | none =>
              simp only [hx]
              exact (hbc.1 hx).1
          have hr' : noExtract gen (match (extractValueFuel gen f a ctx fp
              (extractValueFuel gen f c ctx fp s).2).1 with
              | some x => x.replacement | none => a) := by
            cases hx : (extractValueFuel gen f a ctx fp
                (extractValueFuel gen f c ctx fp s).2).1 with
            | some x =>
              simp only [hx]
              exact ((hba.2 x hx)).1
            | none =>
              simp only [hx]
              exact (hba.1 hx).1
          refine ⟨?_, flattenClean_single _ rfl (fun x y h => Node.noConfusion h)⟩
          intro f'' ctx' fp' s''
          cases f'' with
          | zero => rfl
          | succ f'' =>
            simp only [extractValueFuel]
            rw [hl' f'' ctx' fp' s'', hr' f'' ctx' fp' _]
            simp
        · exact absurd hr (by simp)
    | logical op l rn =>
      simp only [extractValueFuel] at hw ⊢
      have m1 := hmono l s
      have m2 := hmono rn (extractValueFuel gen f l ctx fp s).2
      have hw2 : (extractValueFuel gen f rn ctx fp
          (extractValueFuel gen f l ctx fp s).2).2.warnings = s.warnings := by
        split at hw
        · exact hw
        · exact hw
      have hwc : (extractValueFuel gen f l ctx fp s).2.warnings = s.warnings := by
        omega
      have hwa : (extractValueFuel gen f rn ctx fp
          (extractValueFuel gen f l ctx fp s).2).2.warnings
          = (extractValueFuel gen f l ctx fp s).2.warnings := by omega
      have hbc := ih l ctx fp s hwc
      have hba := ih rn ctx fp (extractValueFuel gen f l ctx fp s).2 hwa
      constructor
      · intro hnone
        split at hnone
        · exact absurd hnone (by simp)
        · next hcond =>
          have hcn : (extractValueFuel gen f l ctx fp s).1 = none := by
            cases hx : (extractValueFuel gen f l ctx fp s).1 with
            | none => rfl
            | some x => rw [hx] at hcond; simp at hcond
          have han : (extractValueFuel gen f rn ctx fp
              (extractValueFuel gen f l ctx fp s).2).1 = none := by
            cases hx : (extractValueFuel gen f rn ctx fp
                (extractValueFuel gen f l ctx fp s).2).1 with
            | none => rfl
            | some x => rw [hx] at hcond; simp at hcond
          obtain ⟨hnc, _⟩ := hbc.1 hcn
          obtain ⟨hna, _⟩ := hba.1 han
          refine ⟨?_, flattenClean_single _ rfl (fun x y h => Node.noConfusion h)⟩
          intro f'' ctx' fp' s''
          cases f'' with
          | zero => rfl
          | succ f'' =>
            simp only [extractValueFuel]
            rw [hnc f'' ctx' fp' s'', hna f'' ctx' fp' _]
            simp
      · intro r hr
        split at hr
        · next hcond =>
          simp only [Option.some.injEq] at hr
          subst hr
          have hl' : noExtract gen (match (extractValueFuel gen f l ctx fp s).1 with
              | some x => x.replacement | none => l) := by
            cases hx : (extractValueFuel gen f l ctx fp s).1 with
            | some x =>
              simp only [hx]
              exact ((hbc.2 x hx)).1
            | none =>
              simp only [hx]
              exact (hbc.1 hx).1
          have hr' : noExtract gen (match (extractValueFuel gen f rn ctx fp
              (extractValueFuel gen f l ctx fp s).2).1 with
              | some x => x.replacement | none => rn) := by
            cases hx : (extractValueFuel gen f rn ctx fp
                (extractValueFuel gen f l ctx fp s).2).1 with
            | some x =>
              simp only [hx]
              exact ((hba.2 x hx)).1
            | none =>
              simp only [hx]
              exact (hba.1 hx).1
          refine ⟨?_, flattenClean_single _ rfl (fun x y h => Node.noConfusion h)⟩
          intro f'' ctx' fp' s''
          cases f'' with
          | zero => rfl
          | succ f'' =>
            simp only [extractValueFuel]
            rw [hl' f'' ctx' fp' s'', hr' f'' ctx' fp' _]
            simp
        · exact absurd hr (by simp)
    | arrayLit elems =>
      simp only [extractValueFuel] at hw ⊢
      have hw1 : (extractElemListWith
          (fun m s' => extractValueFuel gen f m ctx fp s') elems s).2.2.warnings
          = s.warnings := by
        split at hw
        · exact hw
        · exact hw
      have hL := elemList_main gen _ hmono hmain elems s hw1
      constructor
      · intro hnone
        split at hnone
        · exact absurd hnone (by simp)
        · next hfl =>
          have hfl2 : (extractElemListWith
              (fun m s' => extractValueFuel gen f m ctx fp s') elems s).2.1
              = false := Bool.eq_false_iff.mpr hfl
          obtain ⟨hout, hall⟩ := hL.2 hfl2
          refine ⟨?_, flattenClean_single _ rfl (fun x y h => Node.noConfusion h)⟩
          intro f'' ctx' fp' s''
          cases f'' with
          | zero => rfl
          | succ f'' =>
            simp only [extractValueFuel]
            have hre := elemList_noExtract
              (fun m s' => extractValueFuel gen f'' m ctx' fp' s') elems
              (fun x hx m hm s3 => hall x hx m hm f'' ctx' fp' s3) s''
            rw [hre.2]
            simp
      · intro r hr
        split at hr
        · simp only [Option.some.injEq] at hr
          subst hr
          refine ⟨?_, flattenClean_single _ rfl (fun x y h => Node.noConfusion h)⟩
          intro f'' ctx' fp' s''
          cases f'' with
          | zero => rfl
          | succ f'' =>
            simp only [extractValueFuel]
            have hre := elemList_noExtract
              (fun m s' => extractValueFuel gen f'' m ctx' fp' s')
              (extractElemListWith
                (fun m s' => extractValueFuel gen f m ctx fp s') elems s).1
              (fun x hx m hm s3 => hL.1 x hx m hm f'' ctx' fp' s3) s''
            rw [hre.2]
            simp
        · exact absurd hr (by simp)
    | call callee args =>
      by_cases hintl : isIntlGetCall callee = true
      · refine ⟨?_, ?_⟩
        · intro _
          refine ⟨?_, flattenClean_single _ rfl (fun x y h => Node.noConfusion h)⟩
          intro f'' ctx' fp' s''
          cases f'' with
          | zero => rfl
          | succ f'' =>
            simp only [extractValueFuel, hintl]
            rfl
        · intro r hr
          exfalso
          simp only [extractValueFuel, hintl] at hr
          exact Option.noConfusion hr
      · have hif : isIntlGetCall callee = false := Bool.eq_false_iff.mpr hintl
        rw [call_step gen f callee args ctx fp s hif] at hw ⊢
        have hw1 : (extractExprListWith
            (fun m s' => extractValueFuel gen f m ctx fp s') args s).2.2.warnings
            = s.warnings := by
          split at hw
          · exact hw
          · exact hw
        have hL := exprList_main gen _ hmono hmain args s hw1
        constructor
        · intro hnone
          split at hnone
          · exact absurd hnone (by simp)
          · next hfl =>
            have hfl2 : (extractExprListWith
                (fun m s' => extractValueFuel gen f m ctx fp s') args s).2.1
                = false := Bool.eq_false_iff.mpr hfl
            obtain ⟨hout, hall⟩ := hL.2 hfl2
            refine ⟨?_, flattenClean_single _ rfl (fun x y h => Node.noConfusion h)⟩
            intro f'' ctx' fp' s''
            cases f'' with
            | zero => rfl
            | succ f'' =>
              rw [call_step gen f'' callee args ctx' fp' s'' hif]
              have hre := exprList_noExtract
                (fun m s' => extractValueFuel gen f'' m ctx' fp' s') args
                (fun x hx s3 => hall x hx f'' ctx' fp' s3) s''
              rw [hre.2]
              simp
        · intro r hr
          split at hr
          · simp only [Option.some.injEq] at hr
            subst hr
            refine ⟨?_, flattenClean_single _ rfl (fun x y h => Node.noConfusion h)⟩
            intro f'' ctx' fp' s''
            cases f'' with
            | zero => rfl
            | succ f'' =>
              rw [call_step gen f'' callee
                (extractExprListWith
                  (fun m s' => extractValueFuel gen f m ctx fp s') args s).1
                ctx' fp' s'' hif]
              have hre := exprList_noExtract
                (fun m s' => extractValueFuel gen f'' m ctx' fp' s')
                (extractExprListWith
                  (fun m s' => extractValueFuel gen f m ctx fp s') args s).1
                (fun x hx s3 => hL.1 x hx f'' ctx' fp' s3) s''
              rw [hre.2]
              simp
          · exact absurd hr (by simp)
    | objectLit props =>
      simp only [extractValueFuel] at hw ⊢
      have hw1 : (extractPropListWith
          (fun m s' => extractValueFuel gen f m ctx fp s') props s).2.2.warnings
          = s.warnings := by
        split at hw
        · exact hw
        · exact hw
      have hL := propList_main gen _ hmono hmain props s hw1
      constructor
      · intro hnone
        split at hnone
        · exact absurd hnone (by simp)
        · next hfl =>
          have hfl2 : (extractPropListWith
              (fun m s' => extractValueFuel gen f m ctx fp s') props s).2.1
              = false := Bool.eq_false_iff.mpr hfl
          have hall := hL.2 hfl2
          refine ⟨?_, flattenClean_single _ rfl (fun x y h => Node.noConfusion h)⟩
          intro f'' ctx' fp' s''
          cases f'' with
          | zero => rfl
          | succ f'' =>
            simp only [extractValueFuel]
            have hre := propList_noExtract
              (fun m s' => extractValueFuel gen f'' m ctx' fp' s') props
              (fun p hp k v comp sh heq s3 => hall p hp k v comp sh heq f'' ctx' fp' s3) s''
            rw [hre.2]
            simp
      · intro r hr
        split at hr
        · simp only [Option.some.injEq] at hr
          subst hr
          refine ⟨?_, flattenClean_single _ rfl (fun x y h => Node.noConfusion h)⟩
          intro f'' ctx' fp' s''
          cases f'' with
          | zero => rfl
          | succ f'' =>
            simp only [extractValueFuel]
            have hre := propList_noExtract
              (fun m s' => extractValueFuel gen f'' m ctx' fp' s')
              (extractPropListWith
                (fun m s' => extractValueFuel gen f m ctx fp s') props s).1
              (fun p hp k v comp sh heq s3 => hL.1 p hp k v comp sh heq f'' ctx' fp' s3) s''
            rw [hre.2]
            simp
        · exact absurd hr (by simp)
    | jsxContainer e =>
      simp only [extractValueFuel] at hw ⊢
      have hb := ih e ctx fp s hw
      constructor
      · intro hnone
        obtain ⟨hne, _⟩ := hb.1 hnone
        refine ⟨?_, flattenClean_single _ rfl (fun x y h => Node.noConfusion h)⟩
        intro f'' ctx' fp' s''
        cases f'' with
        | zero => rfl
        | succ f'' =>
          simp only [extractValueFuel]
          exact hne f'' ctx' fp' s''
      · intro r hr
        exact hb.2 r hr
    | binary op l rn =>
      by_cases hop : op = "+"
      · subst hop
        simp only [extractValueFuel, reduceIte] at hw ⊢
        cases hconv : buildTemplateLiteralFromBinaryExpression (.binary "+" l rn) with
        | some tpl =>
          simp only [hconv] at hw ⊢
          obtain ⟨Q, Ex, htpl, hq⟩ := build_some_chinese_quasi _ tpl hconv
          cases f with
          | zero =>
            exfalso
            simp [extractValueFuel] at hw
            omega
          | succ f' =>
            have hsome : (extractValueFuel gen (f' + 1) tpl ctx fp s).1.isSome
                = true := by
              rw [htpl]
              exact template_chinese_some gen Q Ex hq f' ctx fp s
            obtain ⟨res, hres⟩ := Option.isSome_iff_exists.mp hsome
            simp only [hres] at hw ⊢
            have hb := ih tpl ctx fp s hw
            constructor
            · intro hnone
              exact absurd hnone (by simp)
            · intro r hr
              simp only [Option.some.injEq] at hr
              subst hr
              exact ih tpl ctx fp s hw |>.2 res hres
        | none =>
          simp only [hconv] at hw ⊢
          have m1 := hmono l s
          have m2 := hmono rn (extractValueFuel gen f l ctx fp s).2
          have hw2 : (extractValueFuel gen f rn ctx fp
              (extractValueFuel gen f l ctx fp s).2).2.warnings = s.warnings := by
            split at hw
            · exact hw
            · exact hw
          have hwl : (extractValueFuel gen f l ctx fp s).2.warnings
              = s.warnings := by omega
          have hwr : (extractValueFuel gen f rn ctx fp
              (extractValueFuel gen f l ctx fp s).2).2.warnings
              = (extractValueFuel gen f l ctx fp s).2.warnings := by omega
          have hbl := ih l ctx fp s hwl
          have hbr := ih rn ctx fp (extractValueFuel gen f l ctx fp s).2 hwr
          constructor
          · intro hnone
            split at hnone
            · exact absurd hnone (by simp)
            · next hcond =>
              have hln : (extractValueFuel gen f l ctx fp s).1 = none := by
                cases hx : (extractValueFuel gen f l ctx fp s).1 with
                | none => rfl
                | some x => rw [hx] at hcond; simp at hcond
              have hrn2 : (extractValueFuel gen f rn ctx fp
                  (extractValueFuel gen f l ctx fp s).2).1 = none := by
                cases hx : (extractValueFuel gen f rn ctx fp
                    (extractValueFuel gen f l ctx fp s).2).1 with
                | none => rfl
                | some x => rw [hx] at hcond; simp at hcond
              obtain ⟨hnl, hcl⟩ := hbl.1 hln
              obtain ⟨hnr, hcr⟩ := hbr.1 hrn2
              refine ⟨?_, flattenClean_plus l rn hcl hcr⟩
              intro f'' ctx' fp' s''
              cases f'' with
              | zero => rfl
              | succ f'' =>
                simp only [extractValueFuel, reduceIte, hconv]
                rw [hnl f'' ctx' fp' s'', hnr f'' ctx' fp' _]
                simp
          · intro r hr
            split at hr
            · next hcond =>
              cases hx : (extractValueFuel gen f l ctx fp s).1 with
              | some x =>
                cases hy : (extractValueFuel gen f rn ctx fp
                    (extractValueFuel gen f l ctx fp s).2).1 with
                | some y =>
                  simp only [hx, hy, Option.some.injEq] at hr
                  subst hr
                  have pl := hbl.2 x hx
                  have pr := hbr.2 y hy
                  refine ⟨?_, flattenClean_plus _ _ pl.2 pr.2⟩
                  intro f'' ctx' fp' s''
                  cases f'' with
                  | zero => rfl
                  | succ f'' =>
                    have hconv' : buildTemplateLiteralFromBinaryExpression
                        (.binary "+" x.replacement y.replacement) = none :=
                      build_none_of_clean _ _ (flattenClean_plus _ _ pl.2 pr.2)
                    simp only [extractValueFuel, reduceIte, hconv']
                    rw [pl.1 f'' ctx' fp' s'', pr.1 f'' ctx' fp' _]
                    simp
                | none =>
                  simp only [hx, hy, Option.some.injEq] at hr
                  subst hr
                  have pl := hbl.2 x hx
                  have pr := hbr.1 hy
                  refine ⟨?_, flattenClean_plus _ _ pl.2 pr.2⟩
                  intro f'' ctx' fp' s''
                  cases f'' with
                  | zero => rfl
                  | succ f'' =>
                    have hconv' : buildTemplateLiteralFromBinaryExpression
                        (.binary "+" x.replacement rn) = none :=
                      build_none_of_clean _ _ (flattenClean_plus _ _ pl.2 pr.2)
                    simp only [extractValueFuel, reduceIte, hconv']
                    rw [pl.1 f'' ctx' fp' s'', pr.1 f'' ctx' fp' _]
                    simp
              | none =>
                cases hy : (extractValueFuel gen f rn ctx fp
                    (extractValueFuel gen f l ctx fp s).2).1 with
                | some y =>
                  simp only [hx, hy, Option.some.injEq] at hr
                  subst hr
                  have pl := hbl.1 hx
                  have pr := hbr.2 y hy
                  refine ⟨?_, flattenClean_plus _ _ pl.2 pr.2⟩
                  intro f'' ctx' fp' s''
                  cases f'' with
                  | zero => rfl
                  | succ f'' =>
                    have hconv' : buildTemplateLiteralFromBinaryExpression
                        (.binary "+" l y.replacement) = none :=
                      build_none_of_clean _ _ (flattenClean_plus _ _ pl.2 pr.2)
                    simp only [extractValueFuel, reduceIte, hconv']
                    rw [pl.1 f'' ctx' fp' s'', pr.1 f'' ctx' fp' _]
                    simp
                | none =>
                  exfalso
                  rw [hx, hy] at hcond
                  simp at hcond
            · exact absurd hr (by simp)
      · refine ⟨?_, ?_⟩
        · intro _
          constructor
          · intro f'' ctx' fp' s''
            cases f'' with
            | zero => rfl
            | succ f'' =>
              simp only [extractValueFuel]
              rw [if_neg hop]
          · exact flattenClean_single _ rfl
              (fun a b hh => by injection hh with h1 h2 h3; exact hop h1)
        · intro r hr
          exfalso
          simp only [extractValueFuel] at hr
          rw [if_neg hop] at hr
          exact Option.noConfusion hr
    | funcExpr body =>
      cases body with
      | block stmts0 =>
        simp only [extractValueFuel] at hw ⊢
        have hw1 : (extractStmtListWith
            (fun m s' => extractValueFuel gen f m ctx fp s') stmts0 s).2.2.warnings
            = s.warnings := by
          split at hw
          · exact hw
          · exact hw
        have hL := stmtList_main gen _ hmono hmain stmts0 s hw1
        constructor
        · intro hnone
          split at hnone
          · exact absurd hnone (by simp)
          · next hfl =>
            have hfl2 : (extractStmtListWith
                (fun m s' => extractValueFuel gen f m ctx fp s') stmts0 s).2.1
                = false := Bool.eq_false_iff.mpr hfl
            have hall := hL.2 hfl2
            refine ⟨?_, flattenClean_single _ rfl (fun x y h => Node.noConfusion h)⟩
            intro f'' ctx' fp' s''
            cases f'' with
            | zero => rfl
            | succ f'' =>
              simp only [extractValueFuel]
              have hre := stmtList_noExtract
                (fun m s' => extractValueFuel gen f'' m ctx' fp' s') stmts0
                (fun st hst a ha s3 => hall st hst a ha f'' ctx' fp' s3) s''
              rw [hre.2]
              simp
        · intro r hr
          split at hr
          · simp only [Option.some.injEq] at hr
            subst hr
            refine ⟨?_, flattenClean_single _ rfl (fun x y h => Node.noConfusion h)⟩
            intro f'' ctx' fp' s''
            cases f'' with
            | zero => rfl
            | succ f'' =>
              simp only [extractValueFuel]
              have hre := stmtList_noExtract
                (fun m s' => extractValueFuel gen f'' m ctx' fp' s')
                (extractStmtListWith
                  (fun m s' => extractValueFuel gen f m ctx fp s') stmts0 s).1
                (fun st hst a ha s3 => hL.1 st hst a ha f'' ctx' fp' s3) s''
              rw [hre.2]
              simp
          · exact absurd hr (by simp)
      | _ =>
        simp only [extractValueFuel] at hw ⊢
        constructor
        · intro hnone
          split at hnone
          · exact absurd hnone (by simp)
          · next hrb =>
            simp only [hrb] at hw
            have hb := ih _ ctx fp s hw
            obtain ⟨hnb, _⟩ := hb.1 hrb
            refine ⟨?_, flattenClean_single _ rfl (fun x y h => Node.noConfusion h)⟩
            intro f'' ctx' fp' s''
            cases f'' with
            | zero => rfl
            | succ f'' =>
              simp only [extractValueFuel]
              rw [hnb f'' ctx' fp' s'']
        · intro r hr
          split at hr
          · next res hrb =>
            simp only [Option.some.injEq] at hr
            subst hr
            simp only [hrb] at hw
            have hb := ih _ ctx fp s hw
            have hbs := (hb.2 res hrb).1
            have hnb := replacement_not_block gen f _ ctx fp s res hrb
            refine ⟨?_, flattenClean_single _ rfl (fun x y h => Node.noConfusion h)⟩
            intro f'' ctx' fp' s''
            cases f'' with
            | zero => rfl
            | succ f'' =>
              cases hrepl : res.replacement with
              | block stmts2 => exact absurd hrepl (hnb stmts2)
              | _ =>
                rw [hrepl] at hbs
                simp only [extractValueFuel]
                rw [hbs f'' ctx' fp' s'']
          · exact absurd hr (by simp)
    | _ =>
      refine ⟨fun _ => ⟨?_, ?_⟩, fun r hr => ?_⟩
      · intro f'' ctx' fp' s''
        cases f'' with
        | zero => rfl
        | succ f'' => rfl
      · exact flattenClean_single _ rfl (fun a b h => Node.noConfusion h)
      · exact absurd hr (by simp [extractValueFuel])

theorem extractValue_idempotent (gen : String → String → String)
    (n : Node) (ctx fp : String) (s : ExtractState) (d : Nat)
    (r : ExtractResult) (s2 : ExtractState)
    (h : extractValue gen n ctx fp s d = (some r, s2))
    (hwarn : s2.warnings = s.warnings) :
    ∀ (ctx' fp' : String) (s' : ExtractState) (d' : Nat),
      (extractValue gen r.replacement ctx' fp' s' d').1 = none := by
  intro ctx' fp' s' d'
  unfold extractValue at h ⊢
  have hw : (extractValueFuel gen (MAX_RECURSION_DEPTH - d) n ctx fp s).2.warnings
      = s.warnings := by
    rw [h]
    exact hwarn
  have hs : (extractValueFuel gen (MAX_RECURSION_DEPTH - d) n ctx fp s).1 = some r := by
    rw [h]
  have hm := extract_main gen (MAX_RECURSION_DEPTH - d) n ctx fp s hw
  exact ((hm.2 r hs).1) (MAX_RECURSION_DEPTH - d') ctx' fp' s'

/-- C2: the intl-call guard and skip rule hold unconditionally, and
extraction is idempotent on every subtree whose extraction completed
without hitting the depth guard: if `extractValue` returns a result
without emitting a warning, re-running `extractValue` on the replacement
node (in any context, file, state and at any depth) extracts nothing.
The unconditional form of the claim is refuted by `c2_counterexample`. -/
theorem c2_idempotence (gen : String → String → String)
    (n : Node) (ctx fp : String) (s : ExtractState) (d : Nat)
    (r : ExtractResult) (s2 : ExtractState)
    (h : extractValue gen n ctx fp s d = (some r, s2))
    (hwarn : s2.warnings = s.warnings) :
    (∀ (callee : Node) (args : List Node) (ctx' fp' : String)
        (s' : ExtractState) (d' : Nat), isIntlGetCall callee = true →
      (extractValue gen (.call callee args) ctx' fp' s' d').1 = none) ∧
    (∀ (pre post : List Node) (callee : Node) (args : List Node),
        isIntlGetCall callee = true →
      shouldSkipNode (pre ++ .call callee args :: post) = true) ∧
    (∀ (ctx' fp' : String) (s' : ExtractState) (d' : Nat),
      (extractValue gen r.replacement ctx' fp' s' d').1 = none) := by
  refine ⟨?_, ?_, ?_⟩
  · intro callee args ctx' fp' s' d' hintl
    unfold extractValue
    cases MAX_RECURSION_DEPTH - d' with
    | zero => rfl
    | succ f =>
      simp only [extractValueFuel, hintl]
      rfl
  · intro pre post callee args hintl
    unfold shouldSkipNode
    rw [List.any_append]
    simp [hintl]
  · exact extractValue_idempotent gen n ctx fp s d r s2 h hwarn

theorem c2_idempotence_witness :
    extractValue gC2 (.stringLit "中文") "c" "f" ⟨[], 0⟩ 0 = (some rC2, sC2) ∧
    (extractValue gC2 rC2.replacement "x" "y" ⟨[], 0⟩ 0).1 = none ∧
    (extractValue gC2 (.call (.member (.ident "intl") (.ident "get") false)
      [.stringLit "中文"]) "c" "f" ⟨[], 0⟩ 0).1 = none ∧
    shouldSkipNode [.call (.member (.ident "intl") (.ident "get") false)
      [.stringLit "中文"], .stringLit "中文"] = true :=
  have h : extractValue gC2 (.stringLit "中文") "c" "f" ⟨[], 0⟩ 0
      = (some rC2, sC2) := rfl
  have hk := c2_idempotence gC2 (.stringLit "中文") "c" "f" ⟨[], 0⟩ 0 rC2 sC2 h rfl
  ⟨h, hk.2.2 "x" "y" ⟨[], 0⟩ 0,
    hk.1 _ [.stringLit "中文"] "c" "f" ⟨[], 0⟩ 0 rfl,
    hk.2.1 [] [.stringLit "中文"] _ [.stringLit "中文"] rfl⟩

set_option maxRecDepth 10000 in
/-- C2 (counterexample to the unconditional claim): an 11-term `+` chain
whose innermost literal is Chinese hits the depth limit (two warnings);
the first pass wraps only the outer Chinese literal and keeps the deep
one, so re-running extraction on the output extracts again. -/
theorem c2_counterexample :
    (extractValue gC2 tC2 "c" "f" ⟨[], 0⟩ 0).2.warnings = 2 ∧
    ((extractValue gC2 tC2 "c" "f" ⟨[], 0⟩ 0).1.map (fun r =>
      (extractValue gC2 r.replacement "c" "f" ⟨[], 0⟩ 0).1.isSome)) = some true :=
  ⟨rfl, rfl⟩

end Forge
